import Mathlib

/-!
# Verification of `funlib.segment.arrays.relabel_connected_components`

This file formalises (a shallow embedding of) the blockwise
connected-component relabeling pipeline of
`funlib/segment/arrays/relabel_connected_components.py` and proves the
specification claims about it.

The pipeline works on a 3D integer label volume:

* phase 1 (`find_components_in_block`): each block reads its write region
  grown by a one-voxel halo, runs face-adjacency connected-component
  labeling on it (`skimage.measure.label(..., connectivity=1)`), offsets
  the local labels by `block_id * num_voxels_in_block`, writes the cropped
  result to the output array, re-reads the output over the read region and
  extracts boundary label pairs as merge edges;
* phase 2: all blocks' nodes/edges are collected
  (`read_cross_block_merges`) and resolved into canonical components
  (`find_components`);
* phase 3 (`relabel_in_block`): each block rewrites its write region
  through the canonical mapping (`replace_values`).

Arrays are embedded as functions `V3 → ℕ`, regions as axis-aligned integer
boxes, and block partitions follow daisy's `run_blockwise` with
`fit='shrink'`: write regions tile the volume, boundary blocks shrink.
-/

set_option maxHeartbeats 1000000
set_option linter.unusedSectionVars false
set_option linter.unusedVariables false
set_option linter.unnecessarySimpa false

namespace RelabelCC

/-- A 3D integer coordinate (voxel position or block grid index). -/
structure V3 where
  x : ℤ
  y : ℤ
  z : ℤ
deriving DecidableEq, Repr

/-- The six face neighbors of a voxel (connectivity=1 in skimage terms). -/
def nbrs (p : V3) : List V3 :=
  [⟨p.x - 1, p.y, p.z⟩, ⟨p.x + 1, p.y, p.z⟩,
   ⟨p.x, p.y - 1, p.z⟩, ⟨p.x, p.y + 1, p.z⟩,
   ⟨p.x, p.y, p.z - 1⟩, ⟨p.x, p.y, p.z + 1⟩]

/-- Face adjacency: `q` differs from `p` by one unit along exactly one axis. -/
def adjacent (p q : V3) : Prop := q ∈ nbrs p

instance (p q : V3) : Decidable (adjacent p q) := by
  unfold adjacent; infer_instance

lemma adjacent_iff {p q : V3} : adjacent p q ↔
    (q.x = p.x - 1 ∧ q.y = p.y ∧ q.z = p.z) ∨
    (q.x = p.x + 1 ∧ q.y = p.y ∧ q.z = p.z) ∨
    (q.x = p.x ∧ q.y = p.y - 1 ∧ q.z = p.z) ∨
    (q.x = p.x ∧ q.y = p.y + 1 ∧ q.z = p.z) ∨
    (q.x = p.x ∧ q.y = p.y ∧ q.z = p.z - 1) ∨
    (q.x = p.x ∧ q.y = p.y ∧ q.z = p.z + 1) := by
  cases p; cases q
  simp only [adjacent, nbrs, List.mem_cons, List.not_mem_nil, or_false,
    V3.mk.injEq]

lemma adjacent_symm {p q : V3} (h : adjacent p q) : adjacent q p := by
  have h2 := adjacent_iff.mp h
  clear h
  refine adjacent_iff.mpr ?_
  rcases h2 with ⟨h1, h2, h3⟩ | ⟨h1, h2, h3⟩ | ⟨h1, h2, h3⟩ | ⟨h1, h2, h3⟩ |
    ⟨h1, h2, h3⟩ | ⟨h1, h2, h3⟩
  · exact Or.inr (Or.inl ⟨by omega, by omega, by omega⟩)
  · exact Or.inl ⟨by omega, by omega, by omega⟩
  · exact Or.inr (Or.inr (Or.inr (Or.inl ⟨by omega, by omega, by omega⟩)))
  · exact Or.inr (Or.inr (Or.inl ⟨by omega, by omega, by omega⟩))
  · exact Or.inr (Or.inr (Or.inr (Or.inr (Or.inr
      ⟨by omega, by omega, by omega⟩))))
  · exact Or.inr (Or.inr (Or.inr (Or.inr (Or.inl
      ⟨by omega, by omega, by omega⟩))))

/-- An axis-aligned box of voxels: `lo ≤ p < hi` componentwise. -/
structure Box where
  lo : V3
  hi : V3
deriving DecidableEq, Repr

/-- Membership of a position in a box. -/
def Box.mem (b : Box) (p : V3) : Prop :=
  b.lo.x ≤ p.x ∧ p.x < b.hi.x ∧
  b.lo.y ≤ p.y ∧ p.y < b.hi.y ∧
  b.lo.z ≤ p.z ∧ p.z < b.hi.z

instance (b : Box) (p : V3) : Decidable (b.mem p) := by
  unfold Box.mem; infer_instance

/-- Grow a box outward by `m` voxels on every face (halo inflation). -/
def Box.grow (b : Box) (m : ℤ) : Box :=
  ⟨⟨b.lo.x - m, b.lo.y - m, b.lo.z - m⟩, ⟨b.hi.x + m, b.hi.y + m, b.hi.z + m⟩⟩

/-- The list of integers `a, a+1, ..., b-1`. -/
def intRange (a b : ℤ) : List ℤ :=
  (List.range (b - a).toNat).map (fun i : ℕ => a + (i : ℤ))

lemma mem_intRange {a b t : ℤ} : t ∈ intRange a b ↔ a ≤ t ∧ t < b := by
  unfold intRange
  simp only [List.mem_map, List.mem_range]
  constructor
  · rintro ⟨i, hi, rfl⟩
    omega
  · rintro ⟨h1, h2⟩
    exact ⟨(t - a).toNat, by omega, by omega⟩

lemma intRange_nodup (a b : ℤ) : (intRange a b).Nodup := by
  unfold intRange
  apply List.Nodup.map
  · intro i j h
    dsimp only at h
    omega
  · exact List.nodup_range _

lemma intRange_length (a b : ℤ) : (intRange a b).length = (b - a).toNat := by
  unfold intRange
  simp

/-- All positions of a box, enumerated in raster (C-) order:
`x` slowest, `z` fastest — the order in which numpy traverses axis 0 first. -/
def Box.positions (b : Box) : List V3 :=
  (intRange b.lo.x b.hi.x).flatMap (fun i =>
    (intRange b.lo.y b.hi.y).flatMap (fun j =>
      (intRange b.lo.z b.hi.z).map (fun k => ⟨i, j, k⟩)))

lemma mem_positions {b : Box} {p : V3} : p ∈ b.positions ↔ b.mem p := by
  unfold Box.positions Box.mem
  simp only [List.mem_flatMap, List.mem_map]
  constructor
  · rintro ⟨i, hi, j, hj, k, hk, rfl⟩
    rw [mem_intRange] at hi hj hk
    exact ⟨hi.1, hi.2, hj.1, hj.2, hk.1, hk.2⟩
  · rintro ⟨h1, h2, h3, h4, h5, h6⟩
    exact ⟨p.x, mem_intRange.mpr ⟨h1, h2⟩, p.y, mem_intRange.mpr ⟨h3, h4⟩,
      p.z, mem_intRange.mpr ⟨h5, h6⟩, rfl⟩

lemma positions_nodup (b : Box) : b.positions.Nodup := by
  unfold Box.positions
  refine List.nodup_flatMap.mpr ⟨fun i _ => ?_, ?_⟩
  · refine List.nodup_flatMap.mpr ⟨fun j _ => ?_, ?_⟩
    · exact (intRange_nodup _ _).map (fun k k' h => by cases h; rfl)
    · refine (intRange_nodup _ _).imp ?_
      intro j j' hne
      simp only [Function.onFun, List.disjoint_left, List.mem_map]
      rintro v ⟨k, _, rfl⟩ ⟨k', _, h⟩
      cases h; exact hne rfl
  · refine (intRange_nodup _ _).imp ?_
    intro i i' hne
    simp only [Function.onFun, List.disjoint_left, List.mem_flatMap,
      List.mem_map]
    rintro v ⟨j, _, k, _, rfl⟩ ⟨j', _, k', _, h⟩
    cases h; exact hne rfl

/-- The number of voxels in a box (product of nonnegative extents). -/
def Box.size (b : Box) : ℕ :=
  (b.hi.x - b.lo.x).toNat * ((b.hi.y - b.lo.y).toNat * (b.hi.z - b.lo.z).toNat)

lemma length_flatMap_const {α β : Type} (l : List α) (f : α → List β) (c : ℕ)
    (h : ∀ a ∈ l, (f a).length = c) : (l.flatMap f).length = l.length * c := by
  rw [List.length_flatMap]
  have h2 : List.map (List.length ∘ f) l = List.map (fun _ => c) l :=
    List.map_congr_left (fun a ha => by simp only [Function.comp_apply, h a ha])
  rw [h2, List.map_const', List.sum_replicate, smul_eq_mul]

lemma positions_length (b : Box) : b.positions.length = b.size := by
  unfold Box.positions Box.size
  rw [length_flatMap_const _ _
    ((b.hi.y - b.lo.y).toNat * (b.hi.z - b.lo.z).toNat) ?_, intRange_length]
  intro i _
  rw [length_flatMap_const _ _ (b.hi.z - b.lo.z).toNat ?_, intRange_length]
  intro j _
  rw [List.length_map, intRange_length]

/-! ## Generic reachability closure over a finite universe

Used both for voxel connectivity (the semantics of
`skimage.measure.label(..., connectivity=1)`) and for the merge graph over
global labels (the semantics of `find_components`). -/

section Closure

variable {α : Type} [DecidableEq α]

/-- One step of reachability closure inside the finite universe `u`:
keep every element of `u` already in `S` or one `step` away from `S`. -/
def closeStep (u : List α) (step : α → α → Bool) (S : List α) : List α :=
  u.filter (fun x => decide (x ∈ S) || S.any (fun y => step y x))

/-- Early-exit iteration of `closeStep`: stop as soon as a round adds
nothing (the value equals plain iteration; this form just evaluates
faster). -/
def ballAux (u : List α) (step : α → α → Bool) : ℕ → List α → List α
  | 0, s => s
  | k + 1, s =>
      let s' := closeStep u step s
      if s' = s then s else ballAux u step k s'

/-- Reference iteration of `closeStep`, without the early exit. -/
def iterC (u : List α) (step : α → α → Bool) : ℕ → List α → List α
  | 0, s => s
  | k + 1, s => iterC u step k (closeStep u step s)

/-- Elements of `u` reachable from `a` in at most `k` steps. -/
def ball (u : List α) (step : α → α → Bool) (k : ℕ) (a : α) : List α :=
  ballAux u step k (u.filter (fun x => decide (x = a)))

lemma iterC_fix {u : List α} {step : α → α → Bool} {s : List α}
    (h : closeStep u step s = s) : ∀ k, iterC u step k s = s := by
  intro k
  induction k with
  | zero => rfl
  | succ k ih =>
      show iterC u step k (closeStep u step s) = s
      rw [h]
      exact ih

lemma ballAux_eq_iterC (u : List α) (step : α → α → Bool) :
    ∀ (k : ℕ) (s : List α), ballAux u step k s = iterC u step k s := by
  intro k
  induction k with
  | zero => intro s; rfl
  | succ k ih =>
      intro s
      show (if closeStep u step s = s then s else
        ballAux u step k (closeStep u step s)) = _
      by_cases h : closeStep u step s = s
      · rw [if_pos h]
        show s = iterC u step k (closeStep u step s)
        rw [h, iterC_fix h]
      · rw [if_neg h]
        exact ih (closeStep u step s)

lemma iterC_succ_out (u : List α) (step : α → α → Bool) :
    ∀ (k : ℕ) (s : List α),
      iterC u step (k + 1) s = closeStep u step (iterC u step k s) := by
  intro k
  induction k with
  | zero => intro s; rfl
  | succ k ih =>
      intro s
      show iterC u step (k + 1) (closeStep u step s) = _
      rw [ih (closeStep u step s)]
      rfl

lemma ball_zero (u : List α) (step : α → α → Bool) (a : α) :
    ball u step 0 a = u.filter (fun x => decide (x = a)) := rfl

lemma ball_succ (u : List α) (step : α → α → Bool) (k : ℕ) (a : α) :
    ball u step (k + 1) a = closeStep u step (ball u step k a) := by
  unfold ball
  rw [ballAux_eq_iterC, ballAux_eq_iterC, iterC_succ_out]

/-- Reachability from `a` to `b` inside `u`, decided by iterating the
closure `u.length` times (enough to saturate). -/
def reach (u : List α) (step : α → α → Bool) (a b : α) : Bool :=
  decide (b ∈ ball u step u.length a)

/-- The step relation restricted to the universe, as a `Prop`. -/
def Rel (u : List α) (step : α → α → Bool) (a b : α) : Prop :=
  a ∈ u ∧ b ∈ u ∧ step a b = true

variable {u : List α} {step : α → α → Bool}

lemma mem_ball_zero {a x : α} : x ∈ ball u step 0 a ↔ x ∈ u ∧ x = a := by
  rw [ball_zero, List.mem_filter, decide_eq_true_eq]

lemma mem_ball_succ {k : ℕ} {a x : α} :
    x ∈ ball u step (k + 1) a ↔
      x ∈ u ∧ (x ∈ ball u step k a ∨ ∃ y ∈ ball u step k a, step y x) := by
  rw [ball_succ]
  unfold closeStep
  rw [List.mem_filter, Bool.or_eq_true, decide_eq_true_eq, List.any_eq_true]

lemma ball_subset {k : ℕ} {a x : α} (h : x ∈ ball u step k a) : x ∈ u := by
  cases k with
  | zero => exact (mem_ball_zero.mp h).1
  | succ k => exact (mem_ball_succ.mp h).1

lemma ball_mono {k : ℕ} {a x : α} (h : x ∈ ball u step k a) :
    x ∈ ball u step (k + 1) a :=
  mem_ball_succ.mpr ⟨ball_subset h, Or.inl h⟩

lemma ball_le {k k' : ℕ} (hk : k ≤ k') {a x : α} (h : x ∈ ball u step k a) :
    x ∈ ball u step k' a := by
  induction hk with
  | refl => exact h
  | step _ ih => exact ball_mono ih

lemma mem_ball_self {k : ℕ} {a : α} (ha : a ∈ u) : a ∈ ball u step k a :=
  ball_le (Nat.zero_le k) (mem_ball_zero.mpr ⟨ha, rfl⟩)

lemma ball_sound {k : ℕ} {a x : α} (h : x ∈ ball u step k a) :
    Relation.ReflTransGen (Rel u step) a x := by
  induction k generalizing x with
  | zero =>
      rcases mem_ball_zero.mp h with ⟨_, rfl⟩
      exact Relation.ReflTransGen.refl
  | succ k ih =>
      rcases mem_ball_succ.mp h with ⟨hxu, hx | ⟨y, hy, hstep⟩⟩
      · exact ih hx
      · exact Relation.ReflTransGen.tail (ih hy)
          ⟨ball_subset hy, hxu, hstep⟩

lemma ball_sublist_u (u : List α) (step : α → α → Bool) (k : ℕ) (a : α) :
    (ball u step k a).Sublist u := by
  cases k with
  | zero =>
      rw [ball_zero]
      exact List.filter_sublist u
  | succ k =>
      rw [ball_succ]
      unfold closeStep
      exact List.filter_sublist u

lemma ball_length_le (u : List α) (step : α → α → Bool) (k : ℕ) (a : α) :
    (ball u step k a).length ≤ u.length :=
  (ball_sublist_u u step k a).length_le

lemma ball_sublist_succ (u : List α) (step : α → α → Bool) {a : α}
    (ha : a ∈ u) (k : ℕ) :
    (ball u step k a).Sublist (ball u step (k + 1) a) := by
  rw [ball_succ]
  have h1 : (ball u step k a).Sublist u := ball_sublist_u u step k a
  have h2 : (ball u step k a).filter
      (fun x => decide (x ∈ ball u step k a) ||
        (ball u step k a).any (fun y => step y x)) = ball u step k a := by
    apply List.filter_eq_self.mpr
    intro x hx
    rw [Bool.or_eq_true, decide_eq_true_eq]
    exact Or.inl hx
  have h3 := h1.filter
    (fun x => decide (x ∈ ball u step k a) ||
      (ball u step k a).any (fun y => step y x))
  rw [h2] at h3
  exact h3

lemma ball_stab {a : α} {k : ℕ}
    (h : ball u step (k + 1) a = ball u step k a) (j : ℕ) :
    ball u step (k + j) a = ball u step k a := by
  induction j with
  | zero => rfl
  | succ j ih =>
      rw [show k + (j + 1) = (k + j) + 1 from rfl, ball_succ, ih,
        ← ball_succ]
      exact h

lemma ball_saturated {a : α} (ha : a ∈ u) :
    ball u step (u.length + 1) a = ball u step u.length a := by
  by_contra hne
  -- if no earlier step stabilises either, lengths strictly increase
  have key : ∀ k : ℕ, k ≤ u.length + 1 →
      k + 1 ≤ (ball u step k a).length := by
    intro k hk
    induction k with
    | zero =>
        have : a ∈ ball u step 0 a := mem_ball_zero.mpr ⟨ha, rfl⟩
        exact List.length_pos_of_mem this
    | succ k ih =>
        have hklt : k ≤ u.length + 1 := Nat.le_of_succ_le hk
        have hstrict : ball u step (k + 1) a ≠ ball u step k a := by
          intro heq
          apply hne
          have h1 := ball_stab heq (u.length - k)
          have h2 := ball_stab heq (u.length + 1 - k)
          have e1 : k + (u.length - k) = u.length := by omega
          have e2 : k + (u.length + 1 - k) = u.length + 1 := by omega
          rw [e1] at h1
          rw [e2] at h2
          rw [h1, h2]
        have hsub := ball_sublist_succ u step ha k
        have hlt : (ball u step k a).length < (ball u step (k + 1) a).length := by
          rcases Nat.lt_or_ge (ball u step k a).length
            (ball u step (k + 1) a).length with h | h
          · exact h
          · exact absurd (hsub.eq_of_length (Nat.le_antisymm hsub.length_le h)).symm
              hstrict
        omega
  have h1 := key (u.length + 1) (le_refl _)
  have h2 := ball_length_le u step (u.length + 1) a
  omega

lemma ball_complete {a x : α} (ha : a ∈ u)
    (h : Relation.ReflTransGen (Rel u step) a x) :
    x ∈ ball u step u.length a := by
  induction h with
  | refl => exact mem_ball_self ha
  | tail hyx hr ih =>
      rename_i y z
      have : z ∈ ball u step (u.length + 1) a :=
        mem_ball_succ.mpr ⟨hr.2.1, Or.inr ⟨y, ih, hr.2.2⟩⟩
      rw [ball_saturated ha] at this
      exact this

lemma mem_ball_iff {a x : α} (ha : a ∈ u) :
    x ∈ ball u step u.length a ↔ Relation.ReflTransGen (Rel u step) a x :=
  ⟨ball_sound, ball_complete ha⟩

lemma reach_iff {a b : α} (ha : a ∈ u) :
    reach u step a b = true ↔ Relation.ReflTransGen (Rel u step) a b := by
  unfold reach
  rw [decide_eq_true_eq]
  exact mem_ball_iff ha

lemma rel_symm (u : List α) (step : α → α → Bool)
    (hsym : ∀ x y, step x y = step y x) :
    Symmetric (Rel u step) := by
  intro x y ⟨hx, hy, hs⟩
  exact ⟨hy, hx, by rw [hsym]; exact hs⟩

/-- Two connected elements have literally the same saturated ball. -/
lemma ball_congr {a b : α} (hsym : ∀ x y, step x y = step y x)
    (ha : a ∈ u) (hb : b ∈ u)
    (hr : Relation.ReflTransGen (Rel u step) a b) :
    ball u step u.length a = ball u step u.length b := by
  have hsymR := Relation.ReflTransGen.symmetric (rel_symm u step hsym)
  have hmem : ∀ x, x ∈ ball u step u.length a ↔ x ∈ ball u step u.length b := by
    intro x
    rw [mem_ball_iff ha, mem_ball_iff hb]
    constructor
    · intro hax
      exact Relation.ReflTransGen.trans (hsymR hr) hax
    · intro hbx
      exact Relation.ReflTransGen.trans hr hbx
  rcases Nat.eq_zero_or_pos u.length with h0 | hpos
  · have : u = [] := List.length_eq_zero.mp h0
    subst this
    exact absurd ha (List.not_mem_nil a)
  · obtain ⟨m, hm⟩ : ∃ m, u.length = m + 1 := ⟨u.length - 1, by omega⟩
    rw [hm, ball_succ, ball_succ]
    unfold closeStep
    refine List.filter_congr ?_
    intro x hxu
    rw [Bool.eq_iff_iff, Bool.or_eq_true, Bool.or_eq_true,
      decide_eq_true_eq, decide_eq_true_eq, List.any_eq_true, List.any_eq_true]
    have hx1 : x ∈ ball u step m a ∨ (∃ y ∈ ball u step m a, step y x = true) ↔
        x ∈ ball u step (m + 1) a := by
      rw [mem_ball_succ]
      simp only [hxu, true_and]
    have hx2 : x ∈ ball u step m b ∨ (∃ y ∈ ball u step m b, step y x = true) ↔
        x ∈ ball u step (m + 1) b := by
      rw [mem_ball_succ]
      simp only [hxu, true_and]
    rw [hx1, hx2, ← hm, hmem]

end Closure

/-! ## 1D partition arithmetic (one axis of the block grid) -/

lemma axis_ediv_bounds (b t : ℤ) (hb : 0 < b) :
    b * (t / b) ≤ t ∧ t < b * (t / b + 1) := by
  have e := Int.ediv_add_emod t b
  have r1 := Int.emod_nonneg t hb.ne'
  have r2 := Int.emod_lt_of_pos t hb
  constructor
  · linarith
  · have h : b * (t / b + 1) = b * (t / b) + b := by ring
    linarith

lemma axis_unique (b t g : ℤ) (hb : 0 < b) (h1 : g * b ≤ t)
    (h2 : t < (g + 1) * b) : g = t / b := by
  have hq := axis_ediv_bounds b t hb
  rcases lt_trichotomy g (t / b) with h | h | h
  · exfalso
    have hle : g + 1 ≤ t / b := h
    have h3 : (g + 1) * b ≤ t / b * b :=
      mul_le_mul_of_nonneg_right hle hb.le
    nlinarith [hq.1]
  · exact h
  · exfalso
    have hle : t / b + 1 ≤ g := h
    have h3 : (t / b + 1) * b ≤ g * b :=
      mul_le_mul_of_nonneg_right hle hb.le
    nlinarith [hq.2]

lemma axis_range (s b t : ℤ) (hb : 0 < b) (h0 : 0 ≤ t) (hs : t < s) :
    0 ≤ t / b ∧ t / b < (s + b - 1) / b := by
  have hq := axis_ediv_bounds b t hb
  have hQ := axis_ediv_bounds b (s + b - 1) hb
  constructor
  · by_contra hneg
    push_neg at hneg
    have h1 : t / b + 1 ≤ 0 := hneg
    have h2 : b * (t / b + 1) ≤ b * 0 :=
      mul_le_mul_of_nonneg_left h1 hb.le
    simp only [mul_zero] at h2
    linarith [hq.2]
  · by_contra hge
    push_neg at hge
    have h1 : b * ((s + b - 1) / b) ≤ b * (t / b) :=
      mul_le_mul_of_nonneg_left hge hb.le
    have h2 : b * (t / b) ≤ t := hq.1
    have h3 : s + b - 1 < b * ((s + b - 1) / b + 1) := hQ.2
    nlinarith

lemma axis_lo_lt (s b g : ℤ) (hb : 0 < b) (hg0 : 0 ≤ g)
    (hg : g < (s + b - 1) / b) : g * b < s := by
  have hQ := axis_ediv_bounds b (s + b - 1) hb
  have hle : g + 1 ≤ (s + b - 1) / b := hg
  have h3 : (g + 1) * b ≤ (s + b - 1) / b * b :=
    mul_le_mul_of_nonneg_right hle hb.le
  nlinarith [hQ.1]

/-! ## Pipeline configuration -/

/-- One pipeline run's parameters: the volume shape (`array_in.roi`,
with origin 0, in voxels), the block size (`block_size / voxel_size`)
and the input label volume. -/
structure Setup where
  shape : V3
  bs : V3
  inp : V3 → ℕ

/-- Well-formed parameters: positive volume extents and block size. -/
def Setup.valid (S : Setup) : Prop :=
  0 < S.shape.x ∧ 0 < S.shape.y ∧ 0 < S.shape.z ∧
  0 < S.bs.x ∧ 0 < S.bs.y ∧ 0 < S.bs.z

instance (S : Setup) : Decidable S.valid := by
  unfold Setup.valid; infer_instance

/-- The volume region. -/
def Setup.volBox (S : Setup) : Box := ⟨⟨0, 0, 0⟩, S.shape⟩

/-- `array_in.to_ndarray(roi, fill_value=0)`: out-of-volume reads are 0. -/
def Setup.readVal (S : Setup) (p : V3) : ℕ :=
  if S.volBox.mem p then S.inp p else 0

/-- Number of blocks per axis: `ceil(shape / bs)` (shrink fit). -/
def Setup.nb (S : Setup) : V3 :=
  ⟨(S.shape.x + S.bs.x - 1) / S.bs.x,
   (S.shape.y + S.bs.y - 1) / S.bs.y,
   (S.shape.z + S.bs.z - 1) / S.bs.z⟩

/-- The box of block grid indices. -/
def Setup.gridBox (S : Setup) : Box := ⟨⟨0, 0, 0⟩, S.nb⟩

/-- All blocks, in daisy's deterministic partition order. -/
def Setup.allGrids (S : Setup) : List V3 := S.gridBox.positions

/-- The sequential `block_id` daisy assigns to grid position `g`. -/
def Setup.blockId (S : Setup) (g : V3) : ℕ := S.allGrids.indexOf g

/-- A block's write region (`fit='shrink'`: boundary cells are clipped). -/
def Setup.writeBox (S : Setup) (g : V3) : Box :=
  ⟨⟨g.x * S.bs.x, g.y * S.bs.y, g.z * S.bs.z⟩,
   ⟨min ((g.x + 1) * S.bs.x) S.shape.x,
    min ((g.y + 1) * S.bs.y) S.shape.y,
    min ((g.z + 1) * S.bs.z) S.shape.z⟩⟩

/-- A block's read region: its write region grown by a one-voxel halo
(`write_roi.grow(array_in.voxel_size, array_in.voxel_size)`). -/
def Setup.readBox (S : Setup) (g : V3) : Box := (S.writeBox g).grow 1

/-- `num_voxels_in_block = (read_roi / voxel_size).size()`: the voxel count
of the template read region, used as the per-block label capacity. -/
def Setup.cap (S : Setup) : ℕ :=
  (S.bs.x + 2).toNat * ((S.bs.y + 2).toNat * (S.bs.z + 2).toNat)

/-- The grid position of the unique block whose write region owns voxel `p`. -/
def Setup.blockOf (S : Setup) (p : V3) : V3 :=
  ⟨p.x / S.bs.x, p.y / S.bs.y, p.z / S.bs.z⟩

section PartitionLemmas

variable {S : Setup}

lemma mem_volBox {p : V3} : S.volBox.mem p ↔
    0 ≤ p.x ∧ p.x < S.shape.x ∧ 0 ≤ p.y ∧ p.y < S.shape.y ∧
    0 ≤ p.z ∧ p.z < S.shape.z := Iff.rfl

lemma mem_gridBox {g : V3} : S.gridBox.mem g ↔
    0 ≤ g.x ∧ g.x < (S.shape.x + S.bs.x - 1) / S.bs.x ∧
    0 ≤ g.y ∧ g.y < (S.shape.y + S.bs.y - 1) / S.bs.y ∧
    0 ≤ g.z ∧ g.z < (S.shape.z + S.bs.z - 1) / S.bs.z := Iff.rfl

lemma mem_writeBox {g p : V3} : (S.writeBox g).mem p ↔
    g.x * S.bs.x ≤ p.x ∧ p.x < min ((g.x + 1) * S.bs.x) S.shape.x ∧
    g.y * S.bs.y ≤ p.y ∧ p.y < min ((g.y + 1) * S.bs.y) S.shape.y ∧
    g.z * S.bs.z ≤ p.z ∧ p.z < min ((g.z + 1) * S.bs.z) S.shape.z := Iff.rfl

lemma mem_readBox {g p : V3} : (S.readBox g).mem p ↔
    g.x * S.bs.x - 1 ≤ p.x ∧ p.x < min ((g.x + 1) * S.bs.x) S.shape.x + 1 ∧
    g.y * S.bs.y - 1 ≤ p.y ∧ p.y < min ((g.y + 1) * S.bs.y) S.shape.y + 1 ∧
    g.z * S.bs.z - 1 ≤ p.z ∧ p.z < min ((g.z + 1) * S.bs.z) S.shape.z + 1 :=
  Iff.rfl

lemma blockOf_x (p : V3) : (S.blockOf p).x = p.x / S.bs.x := rfl

lemma blockOf_y (p : V3) : (S.blockOf p).y = p.y / S.bs.y := rfl

lemma blockOf_z (p : V3) : (S.blockOf p).z = p.z / S.bs.z := rfl

lemma blockOf_mem_grid (hS : S.valid) {p : V3} (hp : S.volBox.mem p) :
    S.gridBox.mem (S.blockOf p) := by
  rw [mem_volBox] at hp
  obtain ⟨h1, h2, h3, h4, h5, h6⟩ := hp
  obtain ⟨v1, v2, v3, v4, v5, v6⟩ := hS
  have hx := axis_range S.shape.x S.bs.x p.x v4 h1 h2
  have hy := axis_range S.shape.y S.bs.y p.y v5 h3 h4
  have hz := axis_range S.shape.z S.bs.z p.z v6 h5 h6
  rw [mem_gridBox, blockOf_x, blockOf_y, blockOf_z]
  exact ⟨hx.1, hx.2, hy.1, hy.2, hz.1, hz.2⟩

lemma mem_writeBox_blockOf (hS : S.valid) {p : V3} (hp : S.volBox.mem p) :
    (S.writeBox (S.blockOf p)).mem p := by
  rw [mem_volBox] at hp
  obtain ⟨h1, h2, h3, h4, h5, h6⟩ := hp
  obtain ⟨v1, v2, v3, v4, v5, v6⟩ := hS
  have hx := axis_ediv_bounds S.bs.x p.x v4
  have hy := axis_ediv_bounds S.bs.y p.y v5
  have hz := axis_ediv_bounds S.bs.z p.z v6
  rw [mem_writeBox, blockOf_x, blockOf_y, blockOf_z]
  refine ⟨by nlinarith [hx.1], lt_min (by nlinarith [hx.2]) h2,
          by nlinarith [hy.1], lt_min (by nlinarith [hy.2]) h4,
          by nlinarith [hz.1], lt_min (by nlinarith [hz.2]) h6⟩

lemma blockOf_unique (hS : S.valid) {p g : V3}
    (h : (S.writeBox g).mem p) : g = S.blockOf p := by
  rw [mem_writeBox] at h
  obtain ⟨h1, h2, h3, h4, h5, h6⟩ := h
  obtain ⟨v1, v2, v3, v4, v5, v6⟩ := hS
  have hx := axis_unique S.bs.x p.x g.x v4 h1 (lt_of_lt_of_le h2 (min_le_left _ _))
  have hy := axis_unique S.bs.y p.y g.y v5 h3 (lt_of_lt_of_le h4 (min_le_left _ _))
  have hz := axis_unique S.bs.z p.z g.z v6 h5 (lt_of_lt_of_le h6 (min_le_left _ _))
  cases g
  cases p
  simp only [Setup.blockOf, V3.mk.injEq]
  exact ⟨hx, hy, hz⟩

lemma writeBox_subset_vol (hS : S.valid) {g p : V3}
    (hg : S.gridBox.mem g) (hp : (S.writeBox g).mem p) : S.volBox.mem p := by
  rw [mem_writeBox] at hp
  rw [mem_gridBox] at hg
  obtain ⟨h1, h2, h3, h4, h5, h6⟩ := hp
  obtain ⟨g1, g2, g3, g4, g5, g6⟩ := hg
  obtain ⟨v1, v2, v3, v4, v5, v6⟩ := hS
  rw [mem_volBox]
  refine ⟨?_, lt_of_lt_of_le h2 (min_le_right _ _),
          ?_, lt_of_lt_of_le h4 (min_le_right _ _),
          ?_, lt_of_lt_of_le h6 (min_le_right _ _)⟩
  · have : (0 : ℤ) ≤ g.x * S.bs.x := mul_nonneg g1 v4.le
    linarith
  · have : (0 : ℤ) ≤ g.y * S.bs.y := mul_nonneg g3 v5.le
    linarith
  · have : (0 : ℤ) ≤ g.z * S.bs.z := mul_nonneg g5 v6.le
    linarith

lemma writeBox_nonempty (hS : S.valid) {g : V3} (hg : S.gridBox.mem g) :
    (S.writeBox g).mem ⟨g.x * S.bs.x, g.y * S.bs.y, g.z * S.bs.z⟩ := by
  rw [mem_gridBox] at hg
  obtain ⟨g1, g2, g3, g4, g5, g6⟩ := hg
  obtain ⟨v1, v2, v3, v4, v5, v6⟩ := hS
  have hx := axis_lo_lt S.shape.x S.bs.x g.x v4 g1 g2
  have hy := axis_lo_lt S.shape.y S.bs.y g.y v5 g3 g4
  have hz := axis_lo_lt S.shape.z S.bs.z g.z v6 g5 g6
  rw [mem_writeBox]
  refine ⟨le_refl _, ?_, le_refl _, ?_, le_refl _, ?_⟩
  · show g.x * S.bs.x < min ((g.x + 1) * S.bs.x) S.shape.x
    exact lt_min (by nlinarith) hx
  · show g.y * S.bs.y < min ((g.y + 1) * S.bs.y) S.shape.y
    exact lt_min (by nlinarith) hy
  · show g.z * S.bs.z < min ((g.z + 1) * S.bs.z) S.shape.z
    exact lt_min (by nlinarith) hz

lemma readBox_size_le_cap (hS : S.valid) (g : V3) :
    (S.readBox g).size ≤ S.cap := by
  obtain ⟨v1, v2, v3, v4, v5, v6⟩ := hS
  have hx : ((S.readBox g).hi.x - (S.readBox g).lo.x).toNat ≤ (S.bs.x + 2).toNat := by
    have h1 : (S.readBox g).hi.x = min ((g.x + 1) * S.bs.x) S.shape.x + 1 := rfl
    have h2 : (S.readBox g).lo.x = g.x * S.bs.x - 1 := rfl
    have h3 : min ((g.x + 1) * S.bs.x) S.shape.x ≤ (g.x + 1) * S.bs.x :=
      min_le_left _ _
    have h4 : (g.x + 1) * S.bs.x = g.x * S.bs.x + S.bs.x := by ring
    omega
  have hy : ((S.readBox g).hi.y - (S.readBox g).lo.y).toNat ≤ (S.bs.y + 2).toNat := by
    have h1 : (S.readBox g).hi.y = min ((g.y + 1) * S.bs.y) S.shape.y + 1 := rfl
    have h2 : (S.readBox g).lo.y = g.y * S.bs.y - 1 := rfl
    have h3 : min ((g.y + 1) * S.bs.y) S.shape.y ≤ (g.y + 1) * S.bs.y :=
      min_le_left _ _
    have h4 : (g.y + 1) * S.bs.y = g.y * S.bs.y + S.bs.y := by ring
    omega
  have hz : ((S.readBox g).hi.z - (S.readBox g).lo.z).toNat ≤ (S.bs.z + 2).toNat := by
    have h1 : (S.readBox g).hi.z = min ((g.z + 1) * S.bs.z) S.shape.z + 1 := rfl
    have h2 : (S.readBox g).lo.z = g.z * S.bs.z - 1 := rfl
    have h3 : min ((g.z + 1) * S.bs.z) S.shape.z ≤ (g.z + 1) * S.bs.z :=
      min_le_left _ _
    have h4 : (g.z + 1) * S.bs.z = g.z * S.bs.z + S.bs.z := by ring
    omega
  exact Nat.mul_le_mul hx (Nat.mul_le_mul hy hz)

lemma writeBox_subset_readBox {g p : V3} (hp : (S.writeBox g).mem p) :
    (S.readBox g).mem p := by
  rw [mem_writeBox] at hp
  rw [mem_readBox]
  omega

end PartitionLemmas

/-! ## Block-local connected-component labeling

`skimage.measure.label(labels, connectivity=1)` on the block's read array:
0 stays background, each face-connected component of equal nonzero values
receives a positive label, components numbered in raster order of first
appearance.  We realise it with the generic closure: a component's
representative is its raster-least voxel, and its label is the rank of that
representative among all representatives in raster order. -/

/-- The minimum of a list under the strict comparison `lt`, default `d`. -/
def listMin {α : Type} (lt : α → α → Bool) (l : List α) (d : α) : α :=
  l.foldl (fun m x => if lt x m then x else m) d

lemma listMin_mem_or_default {α : Type} (lt : α → α → Bool) (l : List α)
    (d : α) : listMin lt l d ∈ l ∨ listMin lt l d = d := by
  induction l generalizing d with
  | nil => exact Or.inr rfl
  | cons a l ih =>
      show listMin lt l (if lt a d then a else d) ∈ a :: l ∨
        listMin lt l (if lt a d then a else d) = d
      by_cases had : lt a d = true
      · rw [if_pos had]
        rcases ih a with h | h
        · exact Or.inl (List.mem_cons_of_mem a h)
        · rw [h]
          exact Or.inl (List.mem_cons_self a l)
      · rw [if_neg had]
        rcases ih d with h | h
        · exact Or.inl (List.mem_cons_of_mem a h)
        · exact Or.inr h

lemma listMin_not_lt {α : Type} (lt : α → α → Bool)
    (htrans : ∀ a b c, lt a b = true → lt b c = true → lt a c = true)
    (htot : ∀ a b, lt a b = true ∨ lt b a = true ∨ a = b)
    (hirr : ∀ a, lt a a = false)
    (l : List α) (d : α) :
    ∀ x ∈ d :: l, lt x (listMin lt l d) = false := by
  induction l generalizing d with
  | nil =>
      intro x hx
      rcases List.mem_singleton.mp hx with rfl
      exact hirr x
  | cons a l ih =>
      intro x hx
      have hstep : listMin lt (a :: l) d = listMin lt l (if lt a d then a else d) :=
        rfl
      rw [hstep]
      rcases List.mem_cons.mp hx with heq | hx2
      · subst heq
        by_cases had : lt a x = true
        · rw [if_pos had]
          by_contra hdm
          rw [Bool.not_eq_false] at hdm
          have ham : lt a (listMin lt l a) = false :=
            ih a a (List.mem_cons_self a l)
          have hc : lt a (listMin lt l a) = true := htrans a x _ had hdm
          rw [ham] at hc
          exact Bool.false_ne_true hc
        · rw [if_neg had]
          exact ih x x (List.mem_cons_self x l)
      · rcases List.mem_cons.mp hx2 with heq | hx3
        · subst heq
          by_cases had : lt x d = true
          · rw [if_pos had]
            exact ih x x (List.mem_cons_self x l)
          · rw [if_neg had]
            rcases htot x d with h | h | h
            · exact absurd h had
            · by_contra hxm
              rw [Bool.not_eq_false] at hxm
              have hdm : lt d (listMin lt l d) = false :=
                ih d d (List.mem_cons_self d l)
              have hc : lt d (listMin lt l d) = true := htrans d x _ h hxm
              rw [hdm] at hc
              exact Bool.false_ne_true hc
            · rw [h]
              exact ih d d (List.mem_cons_self d l)
        · by_cases had : lt a d = true
          · rw [if_pos had]
            exact ih a x (List.mem_cons_of_mem a hx3)
          · rw [if_neg had]
            exact ih d x (List.mem_cons_of_mem d hx3)

lemma listMin_eq_of_mem {α : Type} (lt : α → α → Bool)
    (htrans : ∀ a b c, lt a b = true → lt b c = true → lt a c = true)
    (htot : ∀ a b, lt a b = true ∨ lt b a = true ∨ a = b)
    (hirr : ∀ a, lt a a = false)
    (l : List α) (p q : α) (hp : p ∈ l) (hq : q ∈ l) :
    listMin lt l p = listMin lt l q := by
  have hm1 : listMin lt l p ∈ l := by
    rcases listMin_mem_or_default lt l p with h | h
    · exact h
    · rw [h]; exact hp
  have hm2 : listMin lt l q ∈ l := by
    rcases listMin_mem_or_default lt l q with h | h
    · exact h
    · rw [h]; exact hq
  have h12 : lt (listMin lt l p) (listMin lt l q) = false :=
    listMin_not_lt lt htrans htot hirr l q _ (List.mem_cons_of_mem q hm1)
  have h21 : lt (listMin lt l q) (listMin lt l p) = false :=
    listMin_not_lt lt htrans htot hirr l p _ (List.mem_cons_of_mem p hm2)
  rcases htot (listMin lt l p) (listMin lt l q) with h | h | h
  · rw [h12] at h
    exact absurd h Bool.false_ne_true
  · rw [h21] at h
    exact absurd h Bool.false_ne_true
  · exact h

/-- Raster (lexicographic, `x` major) order on positions: the order in which
numpy scans a C-ordered 3D array. -/
def vlexLt (p q : V3) : Bool :=
  decide (p.x < q.x) ||
    (decide (p.x = q.x) &&
      (decide (p.y < q.y) || (decide (p.y = q.y) && decide (p.z < q.z))))

lemma vlexLt_iff {p q : V3} : vlexLt p q = true ↔
    p.x < q.x ∨ (p.x = q.x ∧ (p.y < q.y ∨ (p.y = q.y ∧ p.z < q.z))) := by
  unfold vlexLt
  simp only [Bool.or_eq_true, Bool.and_eq_true, decide_eq_true_eq]

lemma vlexLt_trans : ∀ a b c : V3, vlexLt a b = true → vlexLt b c = true →
    vlexLt a c = true := by
  intro a b c h1 h2
  rw [vlexLt_iff] at h1 h2 ⊢
  omega

lemma vlexLt_total : ∀ a b : V3, vlexLt a b = true ∨ vlexLt b a = true ∨ a = b := by
  intro a b
  by_cases h : a = b
  · exact Or.inr (Or.inr h)
  · have hne : a.x ≠ b.x ∨ a.y ≠ b.y ∨ a.z ≠ b.z := by
      by_contra hc
      push_neg at hc
      apply h
      cases a; cases b
      simp only [V3.mk.injEq]
      exact ⟨hc.1, hc.2.1, hc.2.2⟩
    have h2 : vlexLt a b = true ∨ vlexLt b a = true := by
      rw [vlexLt_iff, vlexLt_iff]
      rcases hne with h | h | h <;> omega
    rcases h2 with h | h
    · exact Or.inl h
    · exact Or.inr (Or.inl h)

lemma vlexLt_irrefl : ∀ a : V3, vlexLt a a = false := by
  intro a
  rw [Bool.eq_false_iff]
  intro h
  rw [vlexLt_iff] at h
  omega

/-- One step of equal-valued face connectivity: used both on a block's read
array (where out-of-volume voxels read 0) and on the volume itself. -/
def valStep (S : Setup) (p q : V3) : Bool :=
  decide (adjacent p q) && (decide (S.readVal p ≠ 0) &&
    (decide (S.readVal q ≠ 0) && decide (S.readVal p = S.readVal q)))

lemma valStep_iff {S : Setup} {p q : V3} : valStep S p q = true ↔
    adjacent p q ∧ S.readVal p ≠ 0 ∧ S.readVal q ≠ 0 ∧
      S.readVal p = S.readVal q := by
  unfold valStep
  simp only [Bool.and_eq_true, decide_eq_true_eq]

lemma valStep_symm (S : Setup) : ∀ p q, valStep S p q = valStep S q p := by
  intro p q
  rw [Bool.eq_iff_iff, valStep_iff, valStep_iff]
  constructor
  · rintro ⟨h1, h2, h3, h4⟩
    exact ⟨adjacent_symm h1, h3, h2, h4.symm⟩
  · rintro ⟨h1, h2, h3, h4⟩
    exact ⟨adjacent_symm h1, h3, h2, h4.symm⟩

lemma readVal_ne_zero {S : Setup} {p : V3} (h : S.readVal p ≠ 0) :
    S.volBox.mem p ∧ S.inp p ≠ 0 ∧ S.readVal p = S.inp p := by
  unfold Setup.readVal at h ⊢
  by_cases hm : S.volBox.mem p
  · rw [if_pos hm] at h ⊢
    exact ⟨hm, h, rfl⟩
  · rw [if_neg hm] at h
    exact absurd rfl h

/-- The block's read-region voxel list (the dense array skimage labels). -/
def locU (S : Setup) (g : V3) : List V3 := (S.readBox g).positions

/-- The raster-least voxel of `p`'s component in the block's read region. -/
def locRep (S : Setup) (g : V3) (p : V3) : V3 :=
  listMin vlexLt (ball (locU S g) (valStep S) (locU S g).length p) p

/-- Foreground voxels of the read region, in raster order. -/
def locFg (S : Setup) (g : V3) : List V3 :=
  (locU S g).filter (fun p => decide (S.readVal p ≠ 0))

/-- Component representatives, in raster order of first appearance. -/
def locReps (S : Setup) (g : V3) : List V3 :=
  ((locFg S g).map (locRep S g)).dedup

/-- The local label skimage assigns to voxel `p` of block `g`'s read array. -/
def loc (S : Setup) (g : V3) (p : V3) : ℕ :=
  if (S.readBox g).mem p ∧ S.readVal p ≠ 0 then
    (locReps S g).indexOf (locRep S g p) + 1
  else 0

/-- The provisional global label of voxel `p` in block `g`:
`components += block.block_id * num_voxels_in_block` followed by
`components[labels == 0] = 0`. -/
def glob (S : Setup) (g : V3) (p : V3) : ℕ :=
  if loc S g p = 0 then 0 else S.blockId g * S.cap + loc S g p

/-- `p` and `q` are connected by a face-adjacent path of equal nonzero
input values inside the volume: the spec's "same foreground blob". -/
def volConn (S : Setup) (p q : V3) : Prop :=
  Relation.ReflTransGen (Rel S.volBox.positions (valStep S)) p q

/-- Executable version of `volConn`. -/
def volConnB (S : Setup) (p q : V3) : Bool :=
  reach S.volBox.positions (valStep S) p q

section LocLemmas

variable {S : Setup}

lemma volConnB_iff {p q : V3} (hp : S.volBox.mem p) :
    volConnB S p q = true ↔ volConn S p q := by
  unfold volConnB volConn
  exact reach_iff (mem_positions.mpr hp)

lemma loc_ne_zero_iff {g p : V3} :
    loc S g p ≠ 0 ↔ (S.readBox g).mem p ∧ S.readVal p ≠ 0 := by
  unfold loc
  split
  · simp only [ne_eq, Nat.succ_ne_zero, not_false_eq_true, true_iff]
    assumption
  · simp only [ne_eq, not_true_eq_false, false_iff]
    assumption

lemma glob_eq_zero_iff {g p : V3} : glob S g p = 0 ↔ loc S g p = 0 := by
  unfold glob
  split
  · rename_i h
    simp only [h]
  · rename_i h
    constructor
    · intro hc
      omega
    · intro hc
      exact absurd hc h

lemma mem_locU {g p : V3} : p ∈ locU S g ↔ (S.readBox g).mem p := by
  unfold locU
  exact mem_positions

lemma locRep_mem_ball {g p : V3} (hp : (S.readBox g).mem p) :
    locRep S g p ∈ ball (locU S g) (valStep S) (locU S g).length p := by
  unfold locRep
  rcases listMin_mem_or_default vlexLt
      (ball (locU S g) (valStep S) (locU S g).length p) p with h | h
  · exact h
  · rw [h]
    exact mem_ball_self (mem_locU.mpr hp)

/-- Voxels connected inside the read region share a representative. -/
lemma locRep_congr {g p q : V3} (hp : p ∈ locU S g) (hq : q ∈ locU S g)
    (hconn : Relation.ReflTransGen (Rel (locU S g) (valStep S)) p q) :
    locRep S g p = locRep S g q := by
  unfold locRep
  rw [ball_congr (valStep_symm S) hp hq hconn]
  refine listMin_eq_of_mem vlexLt vlexLt_trans vlexLt_total vlexLt_irrefl _ _ _
    ?_ (mem_ball_self hq)
  have : p ∈ ball (locU S g) (valStep S) (locU S g).length p :=
    mem_ball_self hp
  rw [ball_congr (valStep_symm S) hp hq hconn] at this
  exact this

/-- Voxels sharing a representative are connected inside the read region. -/
lemma conn_of_locRep_eq {g p q : V3} (hp : p ∈ locU S g) (hq : q ∈ locU S g)
    (h : locRep S g p = locRep S g q) :
    Relation.ReflTransGen (Rel (locU S g) (valStep S)) p q := by
  have h1 : Relation.ReflTransGen (Rel (locU S g) (valStep S)) p (locRep S g p) :=
    ball_sound (locRep_mem_ball (mem_locU.mp hp))
  have h2 : Relation.ReflTransGen (Rel (locU S g) (valStep S)) q (locRep S g q) :=
    ball_sound (locRep_mem_ball (mem_locU.mp hq))
  have hsym := Relation.ReflTransGen.symmetric
    (rel_symm (locU S g) (valStep S) (valStep_symm S))
  rw [h] at h1
  exact Relation.ReflTransGen.trans h1 (hsym h2)

lemma locRep_mem_locReps {g p : V3} (hp : (S.readBox g).mem p)
    (hfg : S.readVal p ≠ 0) : locRep S g p ∈ locReps S g := by
  unfold locReps
  rw [List.mem_dedup]
  exact List.mem_map_of_mem _ (by
    unfold locFg
    rw [List.mem_filter, decide_eq_true_eq]
    exact ⟨mem_locU.mpr hp, hfg⟩)

/-- Connected foreground voxels get equal local labels. -/
lemma loc_congr {g p q : V3} (hp : (S.readBox g).mem p)
    (hq : (S.readBox g).mem q)
    (hconn : Relation.ReflTransGen (Rel (locU S g) (valStep S)) p q)
    (hfp : S.readVal p ≠ 0) (hfq : S.readVal q ≠ 0) :
    loc S g p = loc S g q := by
  unfold loc
  rw [if_pos ⟨hp, hfp⟩, if_pos ⟨hq, hfq⟩,
    locRep_congr (mem_locU.mpr hp) (mem_locU.mpr hq) hconn]

/-- Equal nonzero local labels only arise from connected voxels. -/
lemma conn_of_loc_eq {g p q : V3} (hp : (S.readBox g).mem p)
    (hq : (S.readBox g).mem q) (hfp : S.readVal p ≠ 0)
    (hfq : S.readVal q ≠ 0) (h : loc S g p = loc S g q) :
    Relation.ReflTransGen (Rel (locU S g) (valStep S)) p q := by
  unfold loc at h
  rw [if_pos ⟨hp, hfp⟩, if_pos ⟨hq, hfq⟩] at h
  have hidx : (locReps S g).indexOf (locRep S g p) =
      (locReps S g).indexOf (locRep S g q) := by omega
  have hmp := locRep_mem_locReps hp hfp
  have hmq := locRep_mem_locReps hq hfq
  have : locRep S g p = locRep S g q := by
    have h1 := List.indexOf_lt_length.mpr hmp
    have h2 := List.indexOf_lt_length.mpr hmq
    have e1 : (locReps S g).get ⟨(locReps S g).indexOf (locRep S g p), h1⟩ =
        locRep S g p := List.indexOf_get h1
    have e2 : (locReps S g).get ⟨(locReps S g).indexOf (locRep S g q), h2⟩ =
        locRep S g q := List.indexOf_get h2
    rw [← e1, ← e2]
    congr 1
    exact Fin.ext hidx
  exact conn_of_locRep_eq (mem_locU.mpr hp) (mem_locU.mpr hq) this

/-- Local labels of foreground voxels lie in `[1, cap]`. -/
lemma loc_le_cap (hS : S.valid) {g p : V3} (h : loc S g p ≠ 0) :
    1 ≤ loc S g p ∧ loc S g p ≤ S.cap := by
  obtain ⟨hp, hfg⟩ := loc_ne_zero_iff.mp h
  unfold loc
  rw [if_pos ⟨hp, hfg⟩]
  refine ⟨Nat.succ_le_succ (Nat.zero_le _), ?_⟩
  have hidx : (locReps S g).indexOf (locRep S g p) < (locReps S g).length :=
    List.indexOf_lt_length.mpr (locRep_mem_locReps hp hfg)
  have h1 : (locReps S g).length ≤ (locFg S g).length := by
    calc (locReps S g).length ≤ ((locFg S g).map (locRep S g)).length :=
          (List.dedup_sublist _).length_le
    _ = (locFg S g).length := List.length_map _ _
  have h2 : (locFg S g).length ≤ (locU S g).length :=
    (List.filter_sublist _).length_le
  have h3 : (locU S g).length = (S.readBox g).size := by
    unfold locU
    exact positions_length _
  have h4 := readBox_size_le_cap hS g
  omega

end LocLemmas

/-! ## Phase 1: `find_components_in_block` -/

/-- The contents of `array_out` (initially all zeros — the documented
precondition). -/
abbrev Arr := V3 → ℕ

/-- Reading `array_out` with `fill_value=0`: positions outside the array's
roi read as 0. -/
def readOut (S : Setup) (arr : Arr) (p : V3) : ℕ :=
  if S.volBox.mem p then arr p else 0

/-- `array_out[block.write_roi] = components[1:-1, 1:-1, 1:-1]`: commit the
cropped offset labels to the block's write region. -/
def writeBlock (S : Setup) (g : V3) (arr : Arr) : Arr :=
  fun p => if (S.writeBox g).mem p then glob S g p else arr p

/-- Coordinate of `p` along axis `d` (numpy axis numbering). -/
def axisC (p : V3) (d : ℕ) : ℤ :=
  if d = 0 then p.x else if d = 1 then p.y else p.z

/-- The outermost slice of box `b` along axis `d`
(`slice(0, 1)` on the negative face, `slice(-1, None)` on the positive). -/
def sliceList (b : Box) (d : ℕ) (pos : Bool) : List V3 :=
  b.positions.filter (fun p =>
    decide (axisC p d = if pos then axisC b.hi d - 1 else axisC b.lo d))

/-- One axis' boundary pairs: `components`/`neighbors` values paired at the
outermost slices of the read region, deduplicated
(`np.unique(concatenate([pairs_neg, pairs_pos]), axis=0)`). -/
def axisPairs (S : Setup) (g : V3) (arr : Arr) (d : ℕ) : List (ℕ × ℕ) :=
  ((sliceList (S.readBox g) d false).map
      (fun p => (glob S g p, readOut S arr p)) ++
    (sliceList (S.readBox g) d true).map
      (fun p => (glob S g p, readOut S arr p))).dedup

/-- The block's edge list: all three axes' pairs with any pair containing a
0 discarded. -/
def blockEdges (S : Setup) (g : V3) (arr : Arr) : List (ℕ × ℕ) :=
  (axisPairs S g arr 0 ++ axisPairs S g arr 1 ++ axisPairs S g arr 2).filter
    (fun e => decide (e.1 ≠ 0) && decide (e.2 ≠ 0))

/-- `nodes = np.unique(edges)`: the distinct values of the retained pairs. -/
def blockNodes (S : Setup) (g : V3) (arr : Arr) : List ℕ :=
  ((blockEdges S g arr).flatMap (fun e => [e.1, e.2])).dedup

/-- A scratch file `block_<id>.npz` holding one block's nodes and edges. -/
structure Entry where
  bid : ℕ
  nodes : List ℕ
  edges : List (ℕ × ℕ)
deriving DecidableEq, Repr

/-- One phase-1 block execution (`find_components_in_block`): write the
offset cropped labels, re-read the output over the read region, extract
and persist boundary edges. -/
def phase1Step (S : Setup) (st : Arr × List Entry) (g : V3) :
    Arr × List Entry :=
  let arr := writeBlock S g st.1
  (arr, st.2 ++ [⟨S.blockId g, blockNodes S g arr, blockEdges S g arr⟩])

/-- Phase 1 (`daisy.run_blockwise` with `find_components_in_block`) over the
order `ord` in which the scheduler happens to run the blocks.  Each block's
write is durably committed before its re-read. -/
def phase1 (S : Setup) (ord : List V3) : Arr × List Entry :=
  ord.foldl (phase1Step S) ((fun _ => 0), [])

/-! ## Phase 2: merge -/

/-- `read_cross_block_merges(tmpdir)`: concatenate nodes and edges of the
scratch files that exist; `np.concatenate` of an empty sequence raises. -/
def readCrossBlockMerges (entries : List Entry) :
    Except String (List ℕ × List (ℕ × ℕ)) :=
  if entries.isEmpty then
    Except.error "need at least one array to concatenate"
  else
    Except.ok (entries.flatMap Entry.nodes, entries.flatMap Entry.edges)

/-- Strict comparison used to pick a component's canonical label. -/
def natLt (a b : ℕ) : Bool := decide (a < b)

/-- Undirected adjacency of two labels in the recorded edge list. -/
def mergeStep (edges : List (ℕ × ℕ)) (a b : ℕ) : Bool :=
  decide ((a, b) ∈ edges) || decide ((b, a) ∈ edges)

/-- The canonical representative of `v`'s component in the merge graph:
the minimum label connected to `v`. -/
def canonical (nodes : List ℕ) (edges : List (ℕ × ℕ)) (v : ℕ) : ℕ :=
  listMin natLt (ball nodes.dedup (mergeStep edges) nodes.dedup.length v) v

/-- Modelled from the spec: `find_components(nodes, edges)` is implemented
in the repo's compiled extension `funlib.segment.arrays.impl` (not under
`src/`); per spec §4.3 it builds the undirected graph of all nodes and
edges, computes connected components by union-find, and maps every node to
its component's canonical representative, the minimum label. -/
def findComponents (nodes : List ℕ) (edges : List (ℕ × ℕ)) : List ℕ :=
  nodes.map (canonical nodes edges)

/-! ## Phase 3: `relabel_in_block` -/

/-- Modelled from the spec: `replace_values(a, old_values, new_values,
inplace=True)` is implemented in the repo's compiled extension (not under
`src/`); per spec §6 it replaces every occurrence of `old_values[i]` by
`new_values[i]`, and values not listed pass through unchanged. -/
def replaceValues (old new : List ℕ) (v : ℕ) : ℕ :=
  if v ∈ old then new.getD (old.indexOf v) v else v

/-- `relabel_in_block`: rewrite one block's write region through the map. -/
def relabelBlock (S : Setup) (nodes comps : List ℕ) (g : V3) (arr : Arr) :
    Arr :=
  fun p =>
    if (S.writeBox g).mem p then replaceValues nodes comps (arr p) else arr p

/-- Phase 3 over the order `ord3` in which the scheduler runs the blocks. -/
def phase3 (S : Setup) (nodes comps : List ℕ) (ord3 : List V3) (arr : Arr) :
    Arr :=
  ord3.foldl (fun a g => relabelBlock S nodes comps g a) arr

/-- The whole pipeline `relabel_connected_components`, parameterised by the
phase-1 and phase-3 block execution orders the scheduler happens to use. -/
def pipeline (S : Setup) (ord ord3 : List V3) : Except String Arr :=
  match readCrossBlockMerges (phase1 S ord).2 with
  | Except.error e => Except.error e
  | Except.ok (nodes, edges) =>
      Except.ok (phase3 S nodes (findComponents nodes edges) ord3
        (phase1 S ord).1)

/-- The output array of a successful pipeline run. -/
def finalOut (S : Setup) (ord ord3 : List V3) : Arr :=
  phase3 S ((phase1 S ord).2.flatMap Entry.nodes)
    (findComponents ((phase1 S ord).2.flatMap Entry.nodes)
      ((phase1 S ord).2.flatMap Entry.edges))
    ord3 (phase1 S ord).1

lemma pipeline_eq_ok {S : Setup} {ord ord3 : List V3}
    (h : (phase1 S ord).2 ≠ []) :
    pipeline S ord ord3 = Except.ok (finalOut S ord ord3) := by
  unfold pipeline readCrossBlockMerges finalOut
  rw [if_neg (by rwa [List.isEmpty_iff])]

/-! ## Characterisation of the phase-1 fold -/

/-- The output array after the blocks in `done` have committed:
each voxel holds its owner's provisional label if the owner has run. -/
def partialArr (S : Setup) (done : List V3) : Arr :=
  fun p =>
    if S.volBox.mem p ∧ S.blockOf p ∈ done then glob S (S.blockOf p) p else 0

/-- The provisional labels after all of phase 1. -/
def out1 (S : Setup) (p : V3) : ℕ :=
  if S.volBox.mem p then glob S (S.blockOf p) p else 0

section Phase1Char

variable {S : Setup}

lemma writeBlock_commit (hS : S.valid) {g : V3} (hg : S.gridBox.mem g)
    (done : List V3) :
    writeBlock S g (partialArr S done) = partialArr S (done ++ [g]) := by
  funext p
  unfold writeBlock partialArr
  by_cases hw : (S.writeBox g).mem p
  · rw [if_pos hw]
    have hv : S.volBox.mem p := writeBox_subset_vol hS hg hw
    have hb : g = S.blockOf p := blockOf_unique hS hw
    rw [if_pos ⟨hv, by rw [← hb]; simp⟩, ← hb]
  · rw [if_neg hw]
    by_cases hv : S.volBox.mem p
    · by_cases hd : S.blockOf p ∈ done
      · rw [if_pos ⟨hv, hd⟩, if_pos ⟨hv, by simp [hd]⟩]
      · rw [if_neg (by intro hc; exact hd hc.2)]
        have hbg : S.blockOf p ≠ g := by
          intro hc
          apply hw
          rw [← hc]
          exact mem_writeBox_blockOf hS hv
        rw [if_neg (by
          intro hc
          rcases List.mem_append.mp hc.2 with h | h
          · exact hd h
          · exact hbg (List.mem_singleton.mp h))]
    · rw [if_neg (by intro hc; exact hv hc.1),
        if_neg (by intro hc; exact hv hc.1)]

/-- The scratch entries phase 1 records when the blocks in `rest` run after
those in `done`. -/
def entriesSpec (S : Setup) : List V3 → List V3 → List Entry
  | _, [] => []
  | done, g :: rest =>
      ⟨S.blockId g, blockNodes S g (partialArr S (done ++ [g])),
        blockEdges S g (partialArr S (done ++ [g]))⟩ ::
        entriesSpec S (done ++ [g]) rest

lemma phase1_fold_char (hS : S.valid) :
    ∀ (rest done : List V3) (es : List Entry),
      (∀ g ∈ rest, S.gridBox.mem g) →
      rest.foldl (phase1Step S) (partialArr S done, es) =
        (partialArr S (done ++ rest), es ++ entriesSpec S done rest) := by
  intro rest
  induction rest with
  | nil =>
      intro done es _
      simp [entriesSpec]
  | cons g rest ih =>
      intro done es hg
      have h1 : phase1Step S (partialArr S done, es) g =
          (partialArr S (done ++ [g]),
            es ++ [⟨S.blockId g, blockNodes S g (partialArr S (done ++ [g])),
              blockEdges S g (partialArr S (done ++ [g]))⟩]) := by
        unfold phase1Step
        rw [writeBlock_commit hS (hg g (List.mem_cons_self g rest)) done]
      show List.foldl (phase1Step S) (phase1Step S (partialArr S done, es) g)
        rest = _
      rw [h1, ih (done ++ [g]) _ (fun g' hg' => hg g' (List.mem_cons_of_mem g hg'))]
      simp [entriesSpec]

lemma partialArr_nil : partialArr S [] = (fun _ => 0) := by
  funext p
  unfold partialArr
  rw [if_neg (by intro hc; exact (List.not_mem_nil _) hc.2)]

lemma phase1_char (hS : S.valid) (ord : List V3)
    (hord : ∀ g ∈ ord, S.gridBox.mem g) :
    phase1 S ord = (partialArr S ord, entriesSpec S [] ord) := by
  unfold phase1
  rw [← partialArr_nil]
  have := phase1_fold_char hS ord [] [] hord
  simpa using this

end Phase1Char

/-! ## Characterisation of the extracted edges -/

section EdgeChar

variable {S : Setup}

lemma mem_sliceList {b : Box} {p : V3} {d : ℕ} {pos : Bool} :
    p ∈ sliceList b d pos ↔
      b.mem p ∧ axisC p d = (if pos then axisC b.hi d - 1 else axisC b.lo d) := by
  unfold sliceList
  rw [List.mem_filter, mem_positions, decide_eq_true_eq]

/-- The union of the six outermost slices of a block's read region is
exactly the halo: the read region minus the write region. -/
lemma slices_cover_halo {g p : V3} :
    (∃ d, d < 3 ∧ ∃ pos : Bool, p ∈ sliceList (S.readBox g) d pos) ↔
      (S.readBox g).mem p ∧ ¬ (S.writeBox g).mem p := by
  constructor
  · rintro ⟨d, hd, pos, hp⟩
    rw [mem_sliceList] at hp
    obtain ⟨hmem, hc⟩ := hp
    refine ⟨hmem, ?_⟩
    have hb : S.readBox g =
        ⟨⟨g.x * S.bs.x - 1, g.y * S.bs.y - 1, g.z * S.bs.z - 1⟩,
         ⟨min ((g.x + 1) * S.bs.x) S.shape.x + 1,
          min ((g.y + 1) * S.bs.y) S.shape.y + 1,
          min ((g.z + 1) * S.bs.z) S.shape.z + 1⟩⟩ := rfl
    rw [hb] at hc
    rw [mem_readBox] at hmem
    rw [mem_writeBox]
    interval_cases d <;> cases pos <;> norm_num [axisC] at hc <;> omega
  · rintro ⟨hr, hw⟩
    have hb : S.readBox g =
        ⟨⟨g.x * S.bs.x - 1, g.y * S.bs.y - 1, g.z * S.bs.z - 1⟩,
         ⟨min ((g.x + 1) * S.bs.x) S.shape.x + 1,
          min ((g.y + 1) * S.bs.y) S.shape.y + 1,
          min ((g.z + 1) * S.bs.z) S.shape.z + 1⟩⟩ := rfl
    have hr' := hr
    rw [mem_readBox] at hr'
    rw [mem_writeBox] at hw
    push_neg at hw
    by_cases h1 : p.x < (S.blockOf p).x * S.bs.x ∨ True
    · -- decide which axis violates the write box
      clear h1
      have hx := hr'
      -- case split on which coordinate is extremal
      by_cases c1 : p.x = g.x * S.bs.x - 1
      · refine ⟨0, by omega, false, ?_⟩
        rw [mem_sliceList]
        refine ⟨hr, ?_⟩
        rw [hb]
        norm_num [axisC]
        omega
      · by_cases c2 : p.x = min ((g.x + 1) * S.bs.x) S.shape.x
        · refine ⟨0, by omega, true, ?_⟩
          rw [mem_sliceList]
          refine ⟨hr, ?_⟩
          rw [hb]
          norm_num [axisC]
          omega
        · by_cases c3 : p.y = g.y * S.bs.y - 1
          · refine ⟨1, by omega, false, ?_⟩
            rw [mem_sliceList]
            refine ⟨hr, ?_⟩
            rw [hb]
            norm_num [axisC]
            omega
          · by_cases c4 : p.y = min ((g.y + 1) * S.bs.y) S.shape.y
            · refine ⟨1, by omega, true, ?_⟩
              rw [mem_sliceList]
              refine ⟨hr, ?_⟩
              rw [hb]
              norm_num [axisC]
              omega
            · by_cases c5 : p.z = g.z * S.bs.z - 1
              · refine ⟨2, by omega, false, ?_⟩
                rw [mem_sliceList]
                refine ⟨hr, ?_⟩
                rw [hb]
                norm_num [axisC]
                omega
              · by_cases c6 : p.z = min ((g.z + 1) * S.bs.z) S.shape.z
                · refine ⟨2, by omega, true, ?_⟩
                  rw [mem_sliceList]
                  refine ⟨hr, ?_⟩
                  rw [hb]
                  norm_num [axisC]
                  omega
                · exfalso
                  omega
    · exact absurd (Or.inr trivial) h1

lemma mem_blockEdges_iff {g : V3} {arr : Arr} {e : ℕ × ℕ} :
    e ∈ blockEdges S g arr ↔
      (∃ p, (S.readBox g).mem p ∧ ¬ (S.writeBox g).mem p ∧
        e = (glob S g p, readOut S arr p)) ∧ e.1 ≠ 0 ∧ e.2 ≠ 0 := by
  unfold blockEdges
  rw [List.mem_filter, Bool.and_eq_true, decide_eq_true_eq, decide_eq_true_eq]
  have hiff : e ∈ (axisPairs S g arr 0 ++ axisPairs S g arr 1 ++
      axisPairs S g arr 2) ↔
      ∃ p, (S.readBox g).mem p ∧ ¬ (S.writeBox g).mem p ∧
        e = (glob S g p, readOut S arr p) := by
    rw [List.mem_append, List.mem_append]
    have hax : ∀ d : ℕ, e ∈ axisPairs S g arr d ↔
        ∃ pos : Bool, ∃ p ∈ sliceList (S.readBox g) d pos,
          e = (glob S g p, readOut S arr p) := by
      intro d
      unfold axisPairs
      rw [List.mem_dedup, List.mem_append, List.mem_map, List.mem_map]
      constructor
      · rintro (⟨p, hp, rfl⟩ | ⟨p, hp, rfl⟩)
        · exact ⟨false, p, hp, rfl⟩
        · exact ⟨true, p, hp, rfl⟩
      · rintro ⟨pos, p, hp, rfl⟩
        cases pos
        · exact Or.inl ⟨p, hp, rfl⟩
        · exact Or.inr ⟨p, hp, rfl⟩
    rw [hax 0, hax 1, hax 2]
    constructor
    · rintro ((⟨pos, p, hp, rfl⟩ | ⟨pos, p, hp, rfl⟩) | ⟨pos, p, hp, rfl⟩)
      · obtain ⟨hr, hw⟩ := slices_cover_halo.mp ⟨0, by omega, pos, hp⟩
        exact ⟨p, hr, hw, rfl⟩
      · obtain ⟨hr, hw⟩ := slices_cover_halo.mp ⟨1, by omega, pos, hp⟩
        exact ⟨p, hr, hw, rfl⟩
      · obtain ⟨hr, hw⟩ := slices_cover_halo.mp ⟨2, by omega, pos, hp⟩
        exact ⟨p, hr, hw, rfl⟩
    · rintro ⟨p, hr, hw, rfl⟩
      obtain ⟨d, hd, pos, hp⟩ := slices_cover_halo.mpr ⟨hr, hw⟩
      interval_cases d
      · exact Or.inl (Or.inl ⟨pos, p, hp, rfl⟩)
      · exact Or.inl (Or.inr ⟨pos, p, hp, rfl⟩)
      · exact Or.inr ⟨pos, p, hp, rfl⟩
  rw [hiff]

lemma mem_blockNodes_iff {g : V3} {arr : Arr} {v : ℕ} :
    v ∈ blockNodes S g arr ↔
      ∃ e ∈ blockEdges S g arr, v = e.1 ∨ v = e.2 := by
  unfold blockNodes
  rw [List.mem_dedup, List.mem_flatMap]
  constructor
  · rintro ⟨e, he, hv⟩
    rcases List.mem_cons.mp hv with h | h
    · exact ⟨e, he, Or.inl h⟩
    · rcases List.mem_singleton.mp h with h2
      exact ⟨e, he, Or.inr h2⟩
  · rintro ⟨e, he, hv⟩
    rcases hv with rfl | rfl
    · exact ⟨e, he, List.mem_cons_self _ _⟩
    · exact ⟨e, he, List.mem_cons_of_mem _ (List.mem_singleton.mpr rfl)⟩

lemma readOut_partialArr (done : List V3) :
    readOut S (partialArr S done) = partialArr S done := by
  funext p
  unfold readOut partialArr
  by_cases hv : S.volBox.mem p
  · rw [if_pos hv]
  · rw [if_neg hv, if_neg (by intro hc; exact hv hc.1)]

lemma partialArr_ne_zero {done : List V3} {p : V3}
    (h : partialArr S done p ≠ 0) :
    S.volBox.mem p ∧ S.blockOf p ∈ done ∧
      partialArr S done p = glob S (S.blockOf p) p := by
  unfold partialArr at h ⊢
  by_cases hc : S.volBox.mem p ∧ S.blockOf p ∈ done
  · rw [if_pos hc]
    exact ⟨hc.1, hc.2, rfl⟩
  · rw [if_neg hc] at h
    exact absurd rfl h

end EdgeChar

/-! ## The run-wide node and edge lists -/

/-- All edges a phase-1 run records (`np.concatenate(edges)`). -/
def allEdges (S : Setup) (ord : List V3) : List (ℕ × ℕ) :=
  (phase1 S ord).2.flatMap Entry.edges

/-- All nodes a phase-1 run records (`np.concatenate(nodes)`). -/
def allNodes (S : Setup) (ord : List V3) : List ℕ :=
  (phase1 S ord).2.flatMap Entry.nodes

section RunChar

variable {S : Setup}

lemma entriesSpec_edges_mem {e : ℕ × ℕ} :
    ∀ (rest done : List V3),
      (e ∈ (entriesSpec S done rest).flatMap Entry.edges ↔
        ∃ pre g post, rest = pre ++ g :: post ∧
          e ∈ blockEdges S g (partialArr S (done ++ pre ++ [g]))) := by
  intro rest
  induction rest with
  | nil =>
      intro done
      simp only [entriesSpec, List.flatMap_nil, List.not_mem_nil, false_iff]
      rintro ⟨pre, g, post, habs, -⟩
      exact absurd habs.symm (List.append_ne_nil_of_right_ne_nil pre
        (List.cons_ne_nil g post))
  | cons g rest ih =>
      intro done
      show e ∈ (Entry.edges _ ++ (entriesSpec S (done ++ [g]) rest).flatMap
        Entry.edges) ↔ _
      rw [List.mem_append]
      constructor
      · rintro (h | h)
        · exact ⟨[], g, rest, rfl, by simpa using h⟩
        · obtain ⟨pre, g', post, hr, hmem⟩ := (ih (done ++ [g])).mp h
          refine ⟨g :: pre, g', post, by rw [hr, List.cons_append], ?_⟩
          rwa [show done ++ (g :: pre) ++ [g'] = (done ++ [g]) ++ pre ++ [g']
            by simp]
      · rintro ⟨pre, g', post, hr, hmem⟩
        cases pre with
        | nil =>
            simp only [List.nil_append, List.cons.injEq] at hr
            obtain ⟨rfl, rfl⟩ := hr
            exact Or.inl (by simpa using hmem)
        | cons ph pt =>
            simp only [List.cons_append, List.cons.injEq] at hr
            obtain ⟨rfl, hr2⟩ := hr
            refine Or.inr ((ih (done ++ [g])).mpr ⟨pt, g', post, hr2, ?_⟩)
            rwa [show done ++ (g :: pt) ++ [g'] = (done ++ [g]) ++ pt ++ [g']
              by simp] at hmem

lemma entriesSpec_nodes_mem {v : ℕ} :
    ∀ (rest done : List V3),
      (v ∈ (entriesSpec S done rest).flatMap Entry.nodes ↔
        ∃ pre g post, rest = pre ++ g :: post ∧
          v ∈ blockNodes S g (partialArr S (done ++ pre ++ [g]))) := by
  intro rest
  induction rest with
  | nil =>
      intro done
      simp only [entriesSpec, List.flatMap_nil, List.not_mem_nil, false_iff]
      rintro ⟨pre, g, post, habs, -⟩
      exact absurd habs.symm (List.append_ne_nil_of_right_ne_nil pre
        (List.cons_ne_nil g post))
  | cons g rest ih =>
      intro done
      show v ∈ (Entry.nodes _ ++ (entriesSpec S (done ++ [g]) rest).flatMap
        Entry.nodes) ↔ _
      rw [List.mem_append]
      constructor
      · rintro (h | h)
        · exact ⟨[], g, rest, rfl, by simpa using h⟩
        · obtain ⟨pre, g', post, hr, hmem⟩ := (ih (done ++ [g])).mp h
          refine ⟨g :: pre, g', post, by rw [hr, List.cons_append], ?_⟩
          rwa [show done ++ (g :: pre) ++ [g'] = (done ++ [g]) ++ pre ++ [g']
            by simp]
      · rintro ⟨pre, g', post, hr, hmem⟩
        cases pre with
        | nil =>
            simp only [List.nil_append, List.cons.injEq] at hr
            obtain ⟨rfl, rfl⟩ := hr
            exact Or.inl (by simpa using hmem)
        | cons ph pt =>
            simp only [List.cons_append, List.cons.injEq] at hr
            obtain ⟨rfl, hr2⟩ := hr
            refine Or.inr ((ih (done ++ [g])).mpr ⟨pt, g', post, hr2, ?_⟩)
            rwa [show done ++ (g :: pt) ++ [g'] = (done ++ [g]) ++ pt ++ [g']
              by simp] at hmem

lemma mem_allEdges_iff (hS : S.valid) {ord : List V3}
    (hord : ∀ g ∈ ord, S.gridBox.mem g) {e : ℕ × ℕ} :
    e ∈ allEdges S ord ↔
      ∃ pre g post, ord = pre ++ g :: post ∧
        e ∈ blockEdges S g (partialArr S (pre ++ [g])) := by
  unfold allEdges
  rw [phase1_char hS ord hord]
  have := entriesSpec_edges_mem (S := S) (e := e) ord []
  simpa using this

lemma mem_allNodes_iff (hS : S.valid) {ord : List V3}
    (hord : ∀ g ∈ ord, S.gridBox.mem g) {v : ℕ} :
    v ∈ allNodes S ord ↔
      ∃ pre g post, ord = pre ++ g :: post ∧
        v ∈ blockNodes S g (partialArr S (pre ++ [g])) := by
  unfold allNodes
  rw [phase1_char hS ord hord]
  have := entriesSpec_nodes_mem (S := S) (v := v) ord []
  simpa using this

/-- Every recorded edge pairs, at some halo voxel `p` of some block `g`,
that block's own label of `p` with the committed label of `p`'s owner. -/
lemma allEdges_sound (hS : S.valid) {ord : List V3}
    (hord : ∀ g ∈ ord, S.gridBox.mem g) {e : ℕ × ℕ}
    (he : e ∈ allEdges S ord) :
    ∃ g p, S.gridBox.mem g ∧ (S.readBox g).mem p ∧ ¬ (S.writeBox g).mem p ∧
      S.volBox.mem p ∧ S.readVal p ≠ 0 ∧ S.blockOf p ∈ ord ∧
      e.1 = glob S g p ∧ e.2 = glob S (S.blockOf p) p ∧ e.1 ≠ 0 ∧ e.2 ≠ 0 := by
  obtain ⟨pre, g, post, hdec, hmem⟩ := (mem_allEdges_iff hS hord).mp he
  obtain ⟨⟨p, hr, hw, hpair⟩, h1, h2⟩ := mem_blockEdges_iff.mp hmem
  rw [readOut_partialArr] at hpair
  have he2 : e.2 = partialArr S (pre ++ [g]) p := by rw [hpair]
  have he1 : e.1 = glob S g p := by rw [hpair]
  have hnz : partialArr S (pre ++ [g]) p ≠ 0 := by
    rw [← he2]; exact h2
  obtain ⟨hv, hd, hval⟩ := partialArr_ne_zero hnz
  have hfg : S.readVal p ≠ 0 := by
    intro hc
    apply h1
    rw [he1, glob_eq_zero_iff]
    rw [← Classical.not_not (a := loc S g p = 0)]
    intro hnot
    exact (loc_ne_zero_iff.mp hnot).2 hc
  have hgmem : g ∈ ord := by
    rw [hdec]
    exact List.mem_append_right pre (List.mem_cons_self g post)
  refine ⟨g, p, hord g hgmem, hr, hw, hv, hfg, ?_, he1, ?_, h1, h2⟩
  · have : S.blockOf p ∈ pre ++ [g] := hd
    rw [hdec]
    rcases List.mem_append.mp this with h | h
    · exact List.mem_append_left _ h
    · rcases List.mem_singleton.mp h with h3
      rw [h3]
      exact List.mem_append_right _ (List.mem_cons_self g post)
  · rw [he2, hval]

/-- If block `b` runs after voxel `p`'s owner, `b` records the edge pairing
its own halo label of `p` with the owner's committed label. -/
lemma allEdges_capture (hS : S.valid) {l1 l2 : List V3} {b p : V3}
    (hord : ∀ g ∈ l1 ++ b :: l2, S.gridBox.mem g)
    (hr : (S.readBox b).mem p) (hw : ¬ (S.writeBox b).mem p)
    (hv : S.volBox.mem p) (hfg : S.readVal p ≠ 0)
    (ha : S.blockOf p ∈ l1) :
    (glob S b p, glob S (S.blockOf p) p) ∈ allEdges S (l1 ++ b :: l2) := by
  rw [mem_allEdges_iff hS hord]
  refine ⟨l1, b, l2, rfl, ?_⟩
  rw [mem_blockEdges_iff]
  have hpart : partialArr S (l1 ++ [b]) p = glob S (S.blockOf p) p := by
    unfold partialArr
    rw [if_pos ⟨hv, List.mem_append_left _ ha⟩]
  have hloc : loc S b p ≠ 0 := loc_ne_zero_iff.mpr ⟨hr, hfg⟩
  have hglobb : glob S b p ≠ 0 := by
    rw [ne_eq, glob_eq_zero_iff]
    exact hloc
  have hloco : loc S (S.blockOf p) p ≠ 0 := by
    rw [loc_ne_zero_iff]
    exact ⟨writeBox_subset_readBox (mem_writeBox_blockOf hS hv), hfg⟩
  have hglobo : glob S (S.blockOf p) p ≠ 0 := by
    rw [ne_eq, glob_eq_zero_iff]
    exact hloco
  exact ⟨⟨p, hr, hw, by rw [readOut_partialArr, hpart]⟩, hglobb, hglobo⟩

/-- Edge endpoints are nodes. -/
lemma allEdges_endpoints_mem (hS : S.valid) {ord : List V3}
    (hord : ∀ g ∈ ord, S.gridBox.mem g) {e : ℕ × ℕ}
    (he : e ∈ allEdges S ord) :
    e.1 ∈ allNodes S ord ∧ e.2 ∈ allNodes S ord := by
  obtain ⟨pre, g, post, hdec, hmem⟩ := (mem_allEdges_iff hS hord).mp he
  constructor
  · rw [mem_allNodes_iff hS hord]
    exact ⟨pre, g, post, hdec, mem_blockNodes_iff.mpr ⟨e, hmem, Or.inl rfl⟩⟩
  · rw [mem_allNodes_iff hS hord]
    exact ⟨pre, g, post, hdec, mem_blockNodes_iff.mpr ⟨e, hmem, Or.inr rfl⟩⟩

/-- Nodes come from edges. -/
lemma allNodes_sound (hS : S.valid) {ord : List V3}
    (hord : ∀ g ∈ ord, S.gridBox.mem g) {v : ℕ}
    (hv : v ∈ allNodes S ord) :
    ∃ e ∈ allEdges S ord, v = e.1 ∨ v = e.2 := by
  obtain ⟨pre, g, post, hdec, hmem⟩ := (mem_allNodes_iff hS hord).mp hv
  obtain ⟨e, he, hor⟩ := mem_blockNodes_iff.mp hmem
  exact ⟨e, (mem_allEdges_iff hS hord).mpr ⟨pre, g, post, hdec, he⟩, hor⟩

end RunChar

/-! ## The canonical mapping and phase 3 -/

section MergeChar

lemma natLt_trans : ∀ a b c : ℕ, natLt a b = true → natLt b c = true →
    natLt a c = true := by
  intro a b c h1 h2
  unfold natLt at h1 h2 ⊢
  rw [decide_eq_true_eq] at h1 h2 ⊢
  omega

lemma natLt_total : ∀ a b : ℕ, natLt a b = true ∨ natLt b a = true ∨ a = b := by
  intro a b
  unfold natLt
  rcases Nat.lt_trichotomy a b with h | h | h
  · exact Or.inl (decide_eq_true h)
  · exact Or.inr (Or.inr h)
  · exact Or.inr (Or.inl (decide_eq_true h))

lemma natLt_irrefl : ∀ a : ℕ, natLt a a = false := by
  intro a
  unfold natLt
  rw [decide_eq_false_iff_not]
  omega

lemma mergeStep_symm (edges : List (ℕ × ℕ)) :
    ∀ a b, mergeStep edges a b = mergeStep edges b a := by
  intro a b
  unfold mergeStep
  rw [Bool.eq_iff_iff, Bool.or_eq_true, Bool.or_eq_true,
    decide_eq_true_eq, decide_eq_true_eq]
  exact Or.comm

/-- Labels connected in the merge graph built from `(nodes, edges)`. -/
def labelConn (nodes : List ℕ) (edges : List (ℕ × ℕ)) (a b : ℕ) : Prop :=
  Relation.ReflTransGen (Rel nodes.dedup (mergeStep edges)) a b

lemma canonical_congr {nodes : List ℕ} {edges : List (ℕ × ℕ)} {a b : ℕ}
    (ha : a ∈ nodes) (hb : b ∈ nodes) (h : labelConn nodes edges a b) :
    canonical nodes edges a = canonical nodes edges b := by
  unfold canonical
  have ha' : a ∈ nodes.dedup := List.mem_dedup.mpr ha
  have hb' : b ∈ nodes.dedup := List.mem_dedup.mpr hb
  rw [ball_congr (mergeStep_symm edges) ha' hb' h]
  refine listMin_eq_of_mem natLt natLt_trans natLt_total natLt_irrefl _ _ _
    ?_ (mem_ball_self hb')
  have hm : a ∈ ball nodes.dedup (mergeStep edges) nodes.dedup.length a :=
    mem_ball_self ha'
  rwa [ball_congr (mergeStep_symm edges) ha' hb' h] at hm

lemma canonical_conn {nodes : List ℕ} {edges : List (ℕ × ℕ)} {a : ℕ}
    (ha : a ∈ nodes) : labelConn nodes edges a (canonical nodes edges a) := by
  unfold canonical
  rcases listMin_mem_or_default natLt
      (ball nodes.dedup (mergeStep edges) nodes.dedup.length a) a with h | h
  · exact ball_sound h
  · rw [h]
    exact Relation.ReflTransGen.refl

lemma canonical_mem {nodes : List ℕ} {edges : List (ℕ × ℕ)} {a : ℕ}
    (ha : a ∈ nodes) : canonical nodes edges a ∈ nodes := by
  unfold canonical
  rcases listMin_mem_or_default natLt
      (ball nodes.dedup (mergeStep edges) nodes.dedup.length a) a with h | h
  · exact List.mem_dedup.mp (ball_subset h)
  · rw [h]
    exact ha

/-- An edge relates its endpoints in the merge graph (provided both
endpoints are nodes, which holds for the lists phase 1 persists). -/
lemma labelConn_of_edge {nodes : List ℕ} {edges : List (ℕ × ℕ)} {e : ℕ × ℕ}
    (he : e ∈ edges) (h1 : e.1 ∈ nodes) (h2 : e.2 ∈ nodes) :
    labelConn nodes edges e.1 e.2 :=
  Relation.ReflTransGen.single
    ⟨List.mem_dedup.mpr h1, List.mem_dedup.mpr h2, by
      unfold mergeStep
      rw [Bool.or_eq_true, decide_eq_true_eq, decide_eq_true_eq]
      exact Or.inl he⟩

lemma labelConn_symm {nodes : List ℕ} {edges : List (ℕ × ℕ)} {a b : ℕ}
    (h : labelConn nodes edges a b) : labelConn nodes edges b a :=
  Relation.ReflTransGen.symmetric
    (rel_symm nodes.dedup (mergeStep edges) (mergeStep_symm edges)) h

/-- `replace_values` with aligned `nodes.map f` acts as the function `f` on
listed values and as the identity elsewhere. -/
lemma replaceValues_map (nodes : List ℕ) (f : ℕ → ℕ) (v : ℕ) :
    replaceValues nodes (nodes.map f) v = if v ∈ nodes then f v else v := by
  unfold replaceValues
  by_cases h : v ∈ nodes
  · rw [if_pos h, if_pos h]
    have hlt : nodes.indexOf v < nodes.length := List.indexOf_lt_length.mpr h
    have hlt' : nodes.indexOf v < (nodes.map f).length := by
      rw [List.length_map]
      exact hlt
    rw [List.getD_eq_getElem (nodes.map f) v hlt', List.getElem_map]
    congr 1
    have := List.indexOf_get (a := v) (l := nodes) hlt
    simpa using this
  · rw [if_neg h, if_neg h]

end MergeChar

/-! ## Phase 3 characterisation -/

section Phase3Char

variable {S : Setup}

lemma phase3_char (hS : S.valid) (nodes comps : List ℕ) :
    ∀ (ord3 : List V3) (arr : Arr) (p : V3), ord3.Nodup →
      (∀ g ∈ ord3, S.gridBox.mem g) →
      phase3 S nodes comps ord3 arr p =
        if ∃ g ∈ ord3, (S.writeBox g).mem p
        then replaceValues nodes comps (arr p) else arr p := by
  intro ord3
  induction ord3 with
  | nil =>
      intro arr p _ _
      rw [if_neg (by rintro ⟨g, hg, -⟩; exact List.not_mem_nil g hg)]
      rfl
  | cons g rest ih =>
      intro arr p hnd hgrids
      have hstep : phase3 S nodes comps (g :: rest) arr =
          phase3 S nodes comps rest (relabelBlock S nodes comps g arr) := rfl
      rw [hstep, ih (relabelBlock S nodes comps g arr) p
        (List.Nodup.of_cons hnd) (fun g' hg' => hgrids g' (List.mem_cons_of_mem g hg'))]
      by_cases hw : (S.writeBox g).mem p
      · have hnone : ¬ ∃ g' ∈ rest, (S.writeBox g').mem p := by
          rintro ⟨g', hg', hw'⟩
          have he1 : g = S.blockOf p := blockOf_unique hS hw
          have he2 : g' = S.blockOf p := blockOf_unique hS hw'
          rw [he1, ← he2] at hnd
          exact (List.nodup_cons.mp hnd).1 hg'
        rw [if_neg hnone,
          if_pos ⟨g, List.mem_cons_self g rest, hw⟩]
        unfold relabelBlock
        rw [if_pos hw]
      · have hiff : (∃ g' ∈ rest, (S.writeBox g').mem p) ↔
            (∃ g' ∈ g :: rest, (S.writeBox g').mem p) := by
          constructor
          · rintro ⟨g', hg', hw'⟩
            exact ⟨g', List.mem_cons_of_mem g hg', hw'⟩
          · rintro ⟨g', hg', hw'⟩
            rcases List.mem_cons.mp hg' with h | h
            · rw [h] at hw'
              exact absurd hw' hw
            · exact ⟨g', h, hw'⟩
        have harr : relabelBlock S nodes comps g arr p = arr p := by
          unfold relabelBlock
          rw [if_neg hw]
        rw [harr]
        by_cases hex : ∃ g' ∈ rest, (S.writeBox g').mem p
        · rw [if_pos hex, if_pos (hiff.mp hex)]
        · rw [if_neg hex, if_neg (fun hc => hex (hiff.mpr hc))]

/-- The value substitution phase 3 applies. -/
def mapped (S : Setup) (ord : List V3) (v : ℕ) : ℕ :=
  replaceValues (allNodes S ord)
    (findComponents (allNodes S ord) (allEdges S ord)) v

/-- Pointwise description of the final output: every voxel of the volume
holds its provisional label pushed through the canonical mapping. -/
lemma finalOut_char (hS : S.valid) {ord ord3 : List V3}
    (hord : ∀ g ∈ ord, S.gridBox.mem g)
    (hcov : ∀ g, S.gridBox.mem g → g ∈ ord)
    (hnd3 : ord3.Nodup) (hord3 : ∀ g ∈ ord3, S.gridBox.mem g)
    (hcov3 : ∀ g, S.gridBox.mem g → g ∈ ord3) (p : V3) :
    finalOut S ord ord3 p =
      if S.volBox.mem p then mapped S ord (out1 S p) else 0 := by
  unfold finalOut
  have h2 : (phase1 S ord).2 = entriesSpec S [] ord :=
    congrArg Prod.snd (phase1_char hS ord hord)
  have h1 : (phase1 S ord).1 = partialArr S ord :=
    congrArg Prod.fst (phase1_char hS ord hord)
  rw [h1, h2]
  have hne : (entriesSpec S [] ord).flatMap Entry.nodes = allNodes S ord := by
    unfold allNodes
    rw [h2]
  have hee : (entriesSpec S [] ord).flatMap Entry.edges = allEdges S ord := by
    unfold allEdges
    rw [h2]
  rw [hne, hee,
    phase3_char hS _ _ ord3 (partialArr S ord) p hnd3 hord3]
  by_cases hv : S.volBox.mem p
  · have hbg : S.gridBox.mem (S.blockOf p) := blockOf_mem_grid hS hv
    have hpw : (S.writeBox (S.blockOf p)).mem p := mem_writeBox_blockOf hS hv
    rw [if_pos ⟨S.blockOf p, hcov3 _ hbg, hpw⟩, if_pos hv]
    have hpart : partialArr S ord p = out1 S p := by
      unfold partialArr out1
      rw [if_pos ⟨hv, hcov _ hbg⟩, if_pos hv]
    rw [hpart]
    rfl
  · have hnex : ¬ ∃ g ∈ ord3, (S.writeBox g).mem p := by
      rintro ⟨g, hg, hw⟩
      exact hv (writeBox_subset_vol hS (hord3 g hg) hw)
    rw [if_neg hnex, if_neg hv]
    unfold partialArr
    rw [if_neg (fun hc => hv hc.1)]

/-- `mapped` acts as `canonical` on recorded nodes and as the identity on
all other values. -/
lemma mapped_eq (S : Setup) (ord : List V3) (v : ℕ) :
    mapped S ord v = if v ∈ allNodes S ord
      then canonical (allNodes S ord) (allEdges S ord) v else v := by
  unfold mapped findComponents
  exact replaceValues_map _ _ v

end Phase3Char

/-! ## Label provenance and injectivity -/

section GlobLemmas

variable {S : Setup}

/-- Locally connected foreground voxels receive the same provisional
global label. -/
lemma glob_congr {g p q : V3} (hp : (S.readBox g).mem p)
    (hq : (S.readBox g).mem q) (hfp : S.readVal p ≠ 0)
    (hfq : S.readVal q ≠ 0)
    (hconn : Relation.ReflTransGen (Rel (locU S g) (valStep S)) p q) :
    glob S g p = glob S g q := by
  unfold glob
  rw [loc_congr hp hq hconn hfp hfq]

lemma pack_inj {b b' l l' c : ℕ} (hl : 1 ≤ l) (hl' : 1 ≤ l')
    (hc : l ≤ c) (hc' : l' ≤ c) (h : b * c + l = b' * c + l') :
    b = b' ∧ l = l' := by
  rcases Nat.lt_trichotomy b b' with hb | hb | hb
  · exfalso
    have h1 : (b + 1) * c ≤ b' * c := Nat.mul_le_mul_right c hb
    have h2 : (b + 1) * c = b * c + c := by ring
    omega
  · constructor
    · exact hb
    · rw [hb] at h
      omega
  · exfalso
    have h1 : (b' + 1) * c ≤ b * c := Nat.mul_le_mul_right c hb
    have h2 : (b' + 1) * c = b' * c + c := by ring
    omega

lemma blockId_inj (hS : S.valid) {g g' : V3} (hg : S.gridBox.mem g)
    (hg' : S.gridBox.mem g') (h : S.blockId g = S.blockId g') : g = g' := by
  unfold Setup.blockId at h
  exact (List.indexOf_inj (mem_positions.mpr hg) (mem_positions.mpr hg')).mp h

/-- Nonzero provisional labels determine the block and the local label:
distinct blocks' label ranges never collide. -/
lemma glob_inj (hS : S.valid) {g g' p p' : V3} (hg : S.gridBox.mem g)
    (hg' : S.gridBox.mem g') (hnz : glob S g p ≠ 0)
    (heq : glob S g p = glob S g' p') :
    g = g' ∧ loc S g p = loc S g' p' := by
  have hnz' : glob S g' p' ≠ 0 := by
    rw [← heq]
    exact hnz
  have hloc : loc S g p ≠ 0 := fun hc => hnz (glob_eq_zero_iff.mpr hc)
  have hloc' : loc S g' p' ≠ 0 := fun hc => hnz' (glob_eq_zero_iff.mpr hc)
  have hb := loc_le_cap hS hloc
  have hb' := loc_le_cap hS hloc'
  unfold glob at heq
  rw [if_neg hloc, if_neg hloc'] at heq
  obtain ⟨hid, hl⟩ := pack_inj hb.1 hb'.1 hb.2 hb'.2 heq
  exact ⟨blockId_inj hS hg hg' hid, hl⟩

/-- Local connectivity on any block's read array implies volume
connectivity (halo voxels read 0 outside the volume, so every foreground
step stays inside the volume). -/
lemma locConn_volConn {g p q : V3}
    (h : Relation.ReflTransGen (Rel (locU S g) (valStep S)) p q) :
    volConn S p q := by
  induction h with
  | refl => exact Relation.ReflTransGen.refl
  | tail hmid hrel ih =>
      obtain ⟨hyu, hzu, hstep⟩ := hrel
      obtain ⟨hadj, hfy, hfz, hval⟩ := valStep_iff.mp hstep
      refine Relation.ReflTransGen.tail ih ⟨?_, ?_, hstep⟩
      · exact mem_positions.mpr (readVal_ne_zero hfy).1
      · exact mem_positions.mpr (readVal_ne_zero hfz).1

/-- Two voxels carrying the same nonzero provisional label are in the same
foreground blob. -/
lemma volConn_of_glob_eq (hS : S.valid) {g h : V3} {x y : V3}
    (hg : S.gridBox.mem g) (hh : S.gridBox.mem h)
    (hx : (S.readBox g).mem x) (hy : (S.readBox h).mem y)
    (hfx : S.readVal x ≠ 0) (hfy : S.readVal y ≠ 0)
    (hnz : glob S g x ≠ 0) (heq : glob S g x = glob S h y) :
    volConn S x y := by
  obtain ⟨rfl, hl⟩ := glob_inj hS hg hh hnz heq
  exact locConn_volConn (conn_of_loc_eq hx hy hfx hfy hl)

end GlobLemmas

/-! ## The merged labels respect blob structure -/

section MergeRespects

variable {S : Setup}

/-- A voxel `q` adjacent to a voxel of `g`'s write region lies in `g`'s
read region. -/
lemma adjacent_readBox {g p q : V3} (hq : (S.writeBox g).mem q)
    (hadj : adjacent q p) : (S.readBox g).mem p := by
  have h := adjacent_iff.mp hadj
  rw [mem_writeBox] at hq
  rw [mem_readBox]
  omega

lemma mem_mem_split {α : Type} [DecidableEq α] :
    ∀ {l : List α} {a b : α}, a ∈ l → b ∈ l → a ≠ b →
      (∃ l1 l2, l = l1 ++ b :: l2 ∧ a ∈ l1) ∨
      (∃ l1 l2, l = l1 ++ a :: l2 ∧ b ∈ l1) := by
  intro l
  induction l with
  | nil =>
      intro a b ha _ _
      exact absurd ha (List.not_mem_nil a)
  | cons x t ih =>
      intro a b ha hb hne
      by_cases hxa : x = a
      · subst hxa
        have hbt : b ∈ t := by
          rcases List.mem_cons.mp hb with h | h
          · exact absurd h.symm hne
          · exact h
        obtain ⟨s, u, rfl⟩ := List.append_of_mem hbt
        exact Or.inl ⟨x :: s, u, rfl, List.mem_cons_self x s⟩
      · by_cases hxb : x = b
        · subst hxb
          have hat : a ∈ t := by
            rcases List.mem_cons.mp ha with h | h
            · exact absurd h (fun hc => hxa hc.symm)
            · exact h
          obtain ⟨s, u, rfl⟩ := List.append_of_mem hat
          exact Or.inr ⟨x :: s, u, rfl, List.mem_cons_self x s⟩
        · have hat : a ∈ t := by
            rcases List.mem_cons.mp ha with h | h
            · exact absurd h (fun hc => hxa hc.symm)
            · exact h
          have hbt : b ∈ t := by
            rcases List.mem_cons.mp hb with h | h
            · exact absurd h (fun hc => hxb hc.symm)
            · exact h
          rcases ih hat hbt hne with ⟨l1, l2, rfl, hmem⟩ | ⟨l1, l2, rfl, hmem⟩
          · exact Or.inl ⟨x :: l1, l2, rfl, List.mem_cons_of_mem x hmem⟩
          · exact Or.inr ⟨x :: l1, l2, rfl, List.mem_cons_of_mem x hmem⟩

/-- Cross-block adjacency, with the earlier block owning `p` and the later
block owning `q`: the later block's re-read captures the adjacency, and
after the merge both voxels map to the same canonical label. -/
lemma mapped_cross (hS : S.valid) {ord : List V3} {l1 l2 : List V3} {b : V3}
    (hdec : ord = l1 ++ b :: l2)
    (hordg : ∀ g ∈ ord, S.gridBox.mem g)
    {p q : V3} (hpv : S.volBox.mem p) (hqv : S.volBox.mem q)
    (hstep : valStep S p q = true)
    (hbq : S.blockOf q = b) (hbp : S.blockOf p ∈ l1)
    (hab : S.blockOf p ≠ b) :
    mapped S ord (out1 S p) = mapped S ord (out1 S q) := by
  obtain ⟨hadj, hfp, hfq, hval⟩ := valStep_iff.mp hstep
  have hb : S.gridBox.mem b := by
    rw [← hbq]
    exact blockOf_mem_grid hS hqv
  have ha : S.gridBox.mem (S.blockOf p) := blockOf_mem_grid hS hpv
  have hqw : (S.writeBox b).mem q := by
    rw [← hbq]
    exact mem_writeBox_blockOf hS hqv
  have hpr : (S.readBox b).mem p := adjacent_readBox hqw (adjacent_symm hadj)
  have hpw : ¬ (S.writeBox b).mem p := by
    intro hc
    exact hab (blockOf_unique hS hc).symm
  have hedge : (glob S b p, glob S (S.blockOf p) p) ∈ allEdges S ord := by
    rw [hdec]
    exact allEdges_capture hS (by rw [← hdec]; exact hordg) hpr hpw hpv hfp hbp
  have hmem := allEdges_endpoints_mem hS hordg hedge
  have hconn : labelConn (allNodes S ord) (allEdges S ord)
      (glob S b p) (glob S (S.blockOf p) p) :=
    labelConn_of_edge hedge hmem.1 hmem.2
  have hglobpq : glob S b p = glob S b q := by
    refine glob_congr hpr (writeBox_subset_readBox hqw) hfp hfq ?_
    exact Relation.ReflTransGen.single
      ⟨mem_locU.mpr hpr, mem_locU.mpr (writeBox_subset_readBox hqw), hstep⟩
  have hout1p : out1 S p = glob S (S.blockOf p) p := by
    unfold out1
    rw [if_pos hpv]
  have hout1q : out1 S q = glob S b q := by
    unfold out1
    rw [if_pos hqv, hbq]
  rw [hout1p, hout1q, ← hglobpq]
  rw [mapped_eq, mapped_eq, if_pos hmem.2, if_pos hmem.1]
  exact (canonical_congr hmem.1 hmem.2 hconn).symm

/-- One face-adjacency step of a blob never separates final labels. -/
lemma mapped_adjacent (hS : S.valid) {ord : List V3} (hnd : ord.Nodup)
    (hordg : ∀ g ∈ ord, S.gridBox.mem g)
    (hcov : ∀ g, S.gridBox.mem g → g ∈ ord)
    {p q : V3} (hpv : S.volBox.mem p) (hqv : S.volBox.mem q)
    (hstep : valStep S p q = true) :
    mapped S ord (out1 S p) = mapped S ord (out1 S q) := by
  obtain ⟨hadj, hfp, hfq, hval⟩ := valStep_iff.mp hstep
  set a := S.blockOf p with hadef
  set b := S.blockOf q with hbdef
  by_cases hab : a = b
  · -- same block: identical provisional labels
    have hpw : (S.writeBox a).mem p := mem_writeBox_blockOf hS hpv
    have hqw : (S.writeBox b).mem q := mem_writeBox_blockOf hS hqv
    have hglob : glob S a p = glob S a q := by
      refine glob_congr (writeBox_subset_readBox hpw)
        (by rw [hab]; exact writeBox_subset_readBox hqw) hfp hfq ?_
      refine Relation.ReflTransGen.single
        ⟨mem_locU.mpr (writeBox_subset_readBox hpw), ?_, hstep⟩
      rw [hab]
      exact mem_locU.mpr (writeBox_subset_readBox hqw)
    have hout1p : out1 S p = glob S a p := by
      unfold out1
      rw [if_pos hpv]
    have hout1q : out1 S q = glob S b q := by
      unfold out1
      rw [if_pos hqv]
    rw [hout1p, hout1q, ← hab, hglob]
  · have hamem : a ∈ ord := hcov a (blockOf_mem_grid hS hpv)
    have hbmem : b ∈ ord := hcov b (blockOf_mem_grid hS hqv)
    rcases mem_mem_split hamem hbmem hab with ⟨l1, l2, hdec, hmem⟩ |
      ⟨l1, l2, hdec, hmem⟩
    · -- b runs later: it captures the adjacency at voxel p
      exact mapped_cross hS hdec hordg hpv hqv hstep hbdef.symm hmem hab
    · -- a runs later: it captures the adjacency at voxel q
      refine (mapped_cross hS hdec hordg hqv hpv ?_ hadef.symm hmem ?_).symm
      · rw [valStep_symm]
        exact hstep
      · intro hc
        exact hab hc.symm

end MergeRespects

/-! ## Merged labels stay within one blob -/

section BlobStructure

variable {S : Setup}

/-- Any two voxel witnesses of labels connected in the merge graph lie in
one foreground blob: the merge only ever joins labels observed at the same
halo voxels. -/
lemma labelConn_witness (hS : S.valid) {ord : List V3}
    (hordg : ∀ g ∈ ord, S.gridBox.mem g) {v w : ℕ}
    (hconn : labelConn (allNodes S ord) (allEdges S ord) v w) :
    ∀ {g h : V3} {x y : V3}, S.gridBox.mem g → S.gridBox.mem h →
      (S.readBox g).mem x → (S.readBox h).mem y →
      S.readVal x ≠ 0 → S.readVal y ≠ 0 →
      v = glob S g x → w = glob S h y → volConn S x y := by
  induction hconn with
  | refl =>
      intro g h x y hg hh hx hy hfx hfy hv hw
      refine volConn_of_glob_eq hS hg hh hx hy hfx hfy ?_ (by rw [← hv, hw])
      rw [← hv, hv]
      rw [ne_eq, glob_eq_zero_iff]
      exact loc_ne_zero_iff.mpr ⟨hx, hfx⟩
  | tail hmid hrel ih =>
      intro g h x y hg hh hx hy hfx hfy hv hw
      rename_i m w'
      obtain ⟨hmu, hwu, hstep⟩ := hrel
      unfold mergeStep at hstep
      rw [Bool.or_eq_true, decide_eq_true_eq, decide_eq_true_eq] at hstep
      rcases hstep with hE | hE
      · -- (m, w') ∈ allEdges
        obtain ⟨g1, p1, hg1, hp1r, hp1w, hp1v, hp1f, hp1o, he1, he2, hn1, hn2⟩ :=
          allEdges_sound hS hordg hE
        have hb1 : S.gridBox.mem (S.blockOf p1) := blockOf_mem_grid hS hp1v
        have hb1r : (S.readBox (S.blockOf p1)).mem p1 :=
          writeBox_subset_readBox (mem_writeBox_blockOf hS hp1v)
        have hxp1 : volConn S x p1 :=
          ih hg hg1 hx hp1r hfx hp1f hv he1
        have hp1y : volConn S p1 y := by
          refine volConn_of_glob_eq hS hb1 hh hb1r hy hp1f hfy ?_ ?_
          · rw [← he2]
            exact hn2
          · rw [← he2, hw]
        exact Relation.ReflTransGen.trans hxp1 hp1y
      · -- (w', m) ∈ allEdges
        obtain ⟨g1, p1, hg1, hp1r, hp1w, hp1v, hp1f, hp1o, he1, he2, hn1, hn2⟩ :=
          allEdges_sound hS hordg hE
        have hb1 : S.gridBox.mem (S.blockOf p1) := blockOf_mem_grid hS hp1v
        have hb1r : (S.readBox (S.blockOf p1)).mem p1 :=
          writeBox_subset_readBox (mem_writeBox_blockOf hS hp1v)
        have hxp1 : volConn S x p1 :=
          ih hg hb1 hx hb1r hfx hp1f hv he2
        have hp1y : volConn S p1 y := by
          refine volConn_of_glob_eq hS hg1 hh hp1r hy hp1f hfy ?_ ?_
          · rw [← he1]
            exact hn1
          · rw [← he1, hw]
        exact Relation.ReflTransGen.trans hxp1 hp1y

/-- The final mapping is constant along any blob. -/
lemma mapped_const_on_blob (hS : S.valid) {ord : List V3} (hnd : ord.Nodup)
    (hordg : ∀ g ∈ ord, S.gridBox.mem g)
    (hcov : ∀ g, S.gridBox.mem g → g ∈ ord) {p q : V3}
    (hconn : volConn S p q) :
    mapped S ord (out1 S p) = mapped S ord (out1 S q) := by
  induction hconn with
  | refl => rfl
  | tail hmid hrel ih =>
      obtain ⟨hyu, hzu, hstep⟩ := hrel
      exact ih.trans (mapped_adjacent hS hnd hordg hcov
        (mem_positions.mp hyu) (mem_positions.mp hzu) hstep)

/-- The final mapping only identifies labels of one blob. -/
lemma volConn_of_mapped_eq (hS : S.valid) {ord : List V3}
    (hordg : ∀ g ∈ ord, S.gridBox.mem g) {p q : V3}
    (hpv : S.volBox.mem p) (hqv : S.volBox.mem q)
    (hfp : S.readVal p ≠ 0) (hfq : S.readVal q ≠ 0)
    (heq : mapped S ord (out1 S p) = mapped S ord (out1 S q)) :
    volConn S p q := by
  have hpg : S.gridBox.mem (S.blockOf p) := blockOf_mem_grid hS hpv
  have hqg : S.gridBox.mem (S.blockOf q) := blockOf_mem_grid hS hqv
  have hpr : (S.readBox (S.blockOf p)).mem p :=
    writeBox_subset_readBox (mem_writeBox_blockOf hS hpv)
  have hqr : (S.readBox (S.blockOf q)).mem q :=
    writeBox_subset_readBox (mem_writeBox_blockOf hS hqv)
  have hout1p : out1 S p = glob S (S.blockOf p) p := by
    unfold out1
    rw [if_pos hpv]
  have hout1q : out1 S q = glob S (S.blockOf q) q := by
    unfold out1
    rw [if_pos hqv]
  rw [mapped_eq, mapped_eq] at heq
  by_cases hp : out1 S p ∈ allNodes S ord
  · by_cases hq : out1 S q ∈ allNodes S ord
    · rw [if_pos hp, if_pos hq] at heq
      have h1 : labelConn (allNodes S ord) (allEdges S ord) (out1 S p)
          (canonical (allNodes S ord) (allEdges S ord) (out1 S p)) :=
        canonical_conn hp
      have h2 : labelConn (allNodes S ord) (allEdges S ord) (out1 S q)
          (canonical (allNodes S ord) (allEdges S ord) (out1 S q)) :=
        canonical_conn hq
      rw [heq] at h1
      have hconn : labelConn (allNodes S ord) (allEdges S ord) (out1 S p)
          (out1 S q) := Relation.ReflTransGen.trans h1 (labelConn_symm h2)
      exact labelConn_witness hS hordg hconn hpg hqg hpr hqr hfp hfq
        hout1p hout1q
    · rw [if_pos hp, if_neg hq] at heq
      exfalso
      apply hq
      rw [← heq]
      exact canonical_mem hp
  · by_cases hq : out1 S q ∈ allNodes S ord
    · rw [if_neg hp, if_pos hq] at heq
      exfalso
      apply hp
      rw [heq]
      exact canonical_mem hq
    · rw [if_neg hp, if_neg hq] at heq
      refine volConn_of_glob_eq hS hpg hqg hpr hqr hfp hfq ?_ ?_
      · rw [← hout1p, hout1p, ne_eq, glob_eq_zero_iff]
        exact loc_ne_zero_iff.mpr ⟨hpr, hfp⟩
      · rw [← hout1p, ← hout1q]
        exact heq

/-- 0 never becomes a node. -/
lemma zero_not_node (hS : S.valid) {ord : List V3}
    (hordg : ∀ g ∈ ord, S.gridBox.mem g) : (0 : ℕ) ∉ allNodes S ord := by
  intro h
  obtain ⟨e, he, hor⟩ := allNodes_sound hS hordg h
  obtain ⟨-, -, -, -, -, -, -, -, -, -, h1, h2⟩ := allEdges_sound hS hordg he
  rcases hor with h0 | h0
  · exact h1 h0.symm
  · exact h2 h0.symm

lemma mapped_zero (hS : S.valid) {ord : List V3}
    (hordg : ∀ g ∈ ord, S.gridBox.mem g) : mapped S ord 0 = 0 := by
  rw [mapped_eq, if_neg (zero_not_node hS hordg)]

lemma mapped_ne_zero (hS : S.valid) {ord : List V3}
    (hordg : ∀ g ∈ ord, S.gridBox.mem g) {v : ℕ} (hv : v ≠ 0) :
    mapped S ord v ≠ 0 := by
  rw [mapped_eq]
  by_cases h : v ∈ allNodes S ord
  · rw [if_pos h]
    intro hc
    apply zero_not_node hS hordg
    rw [← hc]
    exact canonical_mem h
  · rw [if_neg h]
    exact hv

end BlobStructure

/-! ## Further claim-specific definitions -/

/-- The edge-candidate construction as the specification words it, for
comparison with the code: slices taken from the block's *cropped* labels,
i.e. the outermost slices of the write region, paired with the re-read
value at the matching position. -/
def specAxisPairs (S : Setup) (g : V3) (arr : Arr) (d : ℕ) : List (ℕ × ℕ) :=
  ((sliceList (S.writeBox g) d false).map
      (fun p => (glob S g p, readOut S arr p)) ++
    (sliceList (S.writeBox g) d true).map
      (fun p => (glob S g p, readOut S arr p))).dedup

/-- The edge list the specification sentence describes (cropped-label
slices), with zero pairs discarded. -/
def specBlockEdges (S : Setup) (g : V3) (arr : Arr) : List (ℕ × ℕ) :=
  (specAxisPairs S g arr 0 ++ specAxisPairs S g arr 1 ++
    specAxisPairs S g arr 2).filter
    (fun e => decide (e.1 ≠ 0) && decide (e.2 ≠ 0))

/-- `q` lies strictly inside block `g`'s write region, one voxel away from
every face: the blob "never touches a block boundary". -/
def interiorWrite (S : Setup) (g : V3) (q : V3) : Prop :=
  ((S.writeBox g).grow (-1)).mem q

instance (S : Setup) (g q : V3) : Decidable (interiorWrite S g q) := by
  unfold interiorWrite; infer_instance

/-- numpy basic indexing at the shape level: `a[1:-1, 1:-1, 1:-1]` demands
at least three axes and shrinks the first three extents by two; on an
array of lower rank numpy raises `IndexError: too many indices for
array`. -/
def cropHaloShape (shape : List ℕ) : Except String (List ℕ) :=
  if shape.length < 3 then
    Except.error "too many indices for array"
  else
    Except.ok ((shape.take 3).map (fun n => n - 2) ++ shape.drop 3)

/-- The scratch entries whose `block_<id>.npz` files exist (`glob.glob`
finds exactly these). -/
def presentEntries (entries : List Entry) (present : List ℕ) : List Entry :=
  entries.filter (fun en => decide (en.bid ∈ present))

/-- The merge phase run over only the scratch files that exist. -/
def pipelinePresent (S : Setup) (ord ord3 : List V3) (present : List ℕ) :
    Except String Arr :=
  match readCrossBlockMerges (presentEntries (phase1 S ord).2 present) with
  | Except.error e => Except.error e
  | Except.ok (nodes, edges) =>
      Except.ok (phase3 S nodes (findComponents nodes edges) ord3
        (phase1 S ord).1)

/-- The output of a run whose merge saw only the `present` blocks. -/
def finalOutPresent (S : Setup) (ord ord3 : List V3) (present : List ℕ) :
    Arr :=
  phase3 S ((presentEntries (phase1 S ord).2 present).flatMap Entry.nodes)
    (findComponents
      ((presentEntries (phase1 S ord).2 present).flatMap Entry.nodes)
      ((presentEntries (phase1 S ord).2 present).flatMap Entry.edges))
    ord3 (phase1 S ord).1

lemma pipelinePresent_eq_ok {S : Setup} {ord ord3 : List V3}
    {present : List ℕ} (h : presentEntries (phase1 S ord).2 present ≠ []) :
    pipelinePresent S ord ord3 present =
      Except.ok (finalOutPresent S ord ord3 present) := by
  unfold pipelinePresent readCrossBlockMerges finalOutPresent
  rw [if_neg (by rwa [List.isEmpty_iff])]

/-- The label value actually stored when the input array's integer dtype
has `w` bits: skimage's labels are cast to that dtype
(`.astype(labels.dtype)`) and the numpy in-place offset addition wraps
modulo `2 ^ w`; background is reset to 0 afterwards. -/
def globW (S : Setup) (w : ℕ) (g : V3) (p : V3) : ℕ :=
  if loc S g p = 0 then 0
  else (loc S g p % 2 ^ w + S.blockId g * S.cap) % 2 ^ w

lemma readVal_of_mem {S : Setup} {p : V3} (h : S.volBox.mem p) :
    S.readVal p = S.inp p := by
  unfold Setup.readVal
  rw [if_pos h]

lemma mem_interiorWrite {S : Setup} {g q : V3} : interiorWrite S g q ↔
    g.x * S.bs.x - (-1) ≤ q.x ∧
      q.x < min ((g.x + 1) * S.bs.x) S.shape.x + (-1) ∧
    g.y * S.bs.y - (-1) ≤ q.y ∧
      q.y < min ((g.y + 1) * S.bs.y) S.shape.y + (-1) ∧
    g.z * S.bs.z - (-1) ≤ q.z ∧
      q.z < min ((g.z + 1) * S.bs.z) S.shape.z + (-1) := Iff.rfl

lemma mem_interior_writeBox {S : Setup} {g q : V3}
    (h : interiorWrite S g q) : (S.writeBox g).mem q := by
  rw [mem_interiorWrite] at h
  rw [mem_writeBox]
  omega

/-- A voxel strictly inside one block's write region is in no block's halo
(read region minus write region). -/
lemma interiorWrite_not_halo (hS : S.valid) {a g' q : V3}
    (hg' : S.gridBox.mem g') (hint : interiorWrite S a q)
    (hr : (S.readBox g').mem q) (hw : ¬ (S.writeBox g').mem q) : False := by
  -- clamp q into g''s write box: a common point of both write boxes
  have hne := writeBox_nonempty hS hg'
  rw [mem_writeBox] at hne hw
  rw [mem_readBox] at hr
  rw [mem_interiorWrite] at hint
  obtain ⟨i1, i2, i3, i4, i5, i6⟩ := hint
  set c : V3 := ⟨max (g'.x * S.bs.x) (min q.x (min ((g'.x + 1) * S.bs.x) S.shape.x - 1)),
                 max (g'.y * S.bs.y) (min q.y (min ((g'.y + 1) * S.bs.y) S.shape.y - 1)),
                 max (g'.z * S.bs.z) (min q.z (min ((g'.z + 1) * S.bs.z) S.shape.z - 1))⟩
    with hc
  have hcg' : (S.writeBox g').mem c := by
    rw [mem_writeBox, hc]
    refine ⟨le_max_left _ _, ?_, le_max_left _ _, ?_, le_max_left _ _, ?_⟩
    all_goals
      dsimp only
      omega
  have hca : (S.writeBox a).mem c := by
    rw [mem_writeBox, hc]
    refine ⟨?_, ?_, ?_, ?_, ?_, ?_⟩
    all_goals
      dsimp only
      omega
  have h1 : g' = S.blockOf c := blockOf_unique hS hcg'
  have h2 : a = S.blockOf c := blockOf_unique hS hca
  have hag : g' = a := h1.trans h2.symm
  rw [hag] at hw
  exact hw (by omega)

/-! ## Concrete test volumes -/

/-- The spec §8 scenario: an 8-voxel line, block size 4, one foreground run
of 1s at x ∈ {3, 4} straddling the block boundary. -/
def S8 : Setup :=
  ⟨⟨8, 1, 1⟩, ⟨4, 1, 1⟩,
   fun p => if p = ⟨3, 0, 0⟩ ∨ p = ⟨4, 0, 0⟩ then 1 else 0⟩

/-- Two one-voxel blocks; a single foreground voxel owned by block 1 but
sitting in block 0's halo. -/
def SC4 : Setup :=
  ⟨⟨2, 1, 1⟩, ⟨1, 1, 1⟩, fun p => if p = ⟨1, 0, 0⟩ then 1 else 0⟩

/-- The spec §8 scenario with two disconnected runs at x ∈ {0,1} and
x ∈ {6,7}. -/
def SC2w : Setup :=
  ⟨⟨8, 1, 1⟩, ⟨4, 1, 1⟩,
   fun p => if p = ⟨0, 0, 0⟩ ∨ p = ⟨1, 0, 0⟩ ∨ p = ⟨6, 0, 0⟩ ∨ p = ⟨7, 0, 0⟩
     then 1 else 0⟩

/-- A single block with one foreground voxel strictly in its interior. -/
def S7 : Setup :=
  ⟨⟨4, 3, 3⟩, ⟨4, 3, 3⟩, fun p => if p = ⟨1, 1, 1⟩ then 9 else 0⟩

/-- 21 one-voxel blocks: enough for the 8-bit offset arithmetic to wrap. -/
def S10 : Setup :=
  ⟨⟨21, 1, 1⟩, ⟨1, 1, 1⟩,
   fun p => if p = ⟨0, 0, 0⟩ then 5 else if p = ⟨1, 0, 0⟩ then 7
     else if p = ⟨19, 0, 0⟩ then 3 else 0⟩

/-- Grid index of the first block along x. -/
def gA : V3 := ⟨0, 0, 0⟩

/-- Grid index of the second block along x. -/
def gB : V3 := ⟨1, 0, 0⟩

/-! ## The claims -/

/-- Claim C1: for every (3D) input volume and block partition, any two
foreground voxels connected by a face-adjacent path of voxels with equal
nonzero input label values receive the same label in the final output,
whatever order the phase-1 and phase-3 blocks execute in — including when
the path crosses block boundaries. -/
theorem C1_component_correctness (S : Setup) (hS : S.valid)
    (ord ord3 : List V3) (hnd : ord.Nodup)
    (hordg : ∀ g ∈ ord, g ∈ S.allGrids) (hcov : ∀ g ∈ S.allGrids, g ∈ ord)
    (hnd3 : ord3.Nodup) (hord3g : ∀ g ∈ ord3, g ∈ S.allGrids)
    (hcov3 : ∀ g ∈ S.allGrids, g ∈ ord3)
    (p q : V3) (hpv : S.volBox.mem p) (hqv : S.volBox.mem q)
    (hfp : S.inp p ≠ 0) (hfq : S.inp q ≠ 0) (hconn : volConn S p q) :
    finalOut S ord ord3 p = finalOut S ord ord3 q := by
  have hordg' : ∀ g ∈ ord, S.gridBox.mem g :=
    fun g hg => mem_positions.mp (hordg g hg)
  have hcov' : ∀ g, S.gridBox.mem g → g ∈ ord :=
    fun g hg => hcov g (mem_positions.mpr hg)
  have hord3g' : ∀ g ∈ ord3, S.gridBox.mem g :=
    fun g hg => mem_positions.mp (hord3g g hg)
  have hcov3' : ∀ g, S.gridBox.mem g → g ∈ ord3 :=
    fun g hg => hcov3 g (mem_positions.mpr hg)
  rw [finalOut_char hS hordg' hcov' hnd3 hord3g' hcov3' p,
    finalOut_char hS hordg' hcov' hnd3 hord3g' hcov3' q,
    if_pos hpv, if_pos hqv]
  exact mapped_const_on_blob hS hnd hordg' hcov' hconn

/-- Claim C1, witness: in the boundary-straddling scenario the two
foreground voxels on either side of the block boundary get one label. -/
theorem C1_component_correctness_witness :
    finalOut S8 [gA, gB] [gA, gB] ⟨3, 0, 0⟩ =
      finalOut S8 [gA, gB] [gA, gB] ⟨4, 0, 0⟩ :=
  C1_component_correctness S8 (by decide) [gA, gB] [gA, gB] (by decide)
    (by decide) (by decide) (by decide) (by decide) (by decide)
    ⟨3, 0, 0⟩ ⟨4, 0, 0⟩ (by decide) (by decide) (by decide) (by decide)
    ((volConnB_iff (by decide)).mp (by decide))

/-- Claim C2: foreground voxels with no face-adjacent equal-valued path
between them receive distinct (and nonzero) final labels: the pipeline
never merges disconnected blobs. -/
theorem C2_distinctness (S : Setup) (hS : S.valid)
    (ord ord3 : List V3) (hnd : ord.Nodup)
    (hordg : ∀ g ∈ ord, g ∈ S.allGrids) (hcov : ∀ g ∈ S.allGrids, g ∈ ord)
    (hnd3 : ord3.Nodup) (hord3g : ∀ g ∈ ord3, g ∈ S.allGrids)
    (hcov3 : ∀ g ∈ S.allGrids, g ∈ ord3)
    (p q : V3) (hpv : S.volBox.mem p) (hqv : S.volBox.mem q)
    (hfp : S.inp p ≠ 0) (hfq : S.inp q ≠ 0) (hnc : ¬ volConn S p q) :
    finalOut S ord ord3 p ≠ 0 ∧ finalOut S ord ord3 q ≠ 0 ∧
      finalOut S ord ord3 p ≠ finalOut S ord ord3 q := by
  have hordg' : ∀ g ∈ ord, S.gridBox.mem g :=
    fun g hg => mem_positions.mp (hordg g hg)
  have hcov' : ∀ g, S.gridBox.mem g → g ∈ ord :=
    fun g hg => hcov g (mem_positions.mpr hg)
  have hord3g' : ∀ g ∈ ord3, S.gridBox.mem g :=
    fun g hg => mem_positions.mp (hord3g g hg)
  have hcov3' : ∀ g, S.gridBox.mem g → g ∈ ord3 :=
    fun g hg => hcov3 g (mem_positions.mpr hg)
  have hrp : S.readVal p ≠ 0 := by
    rw [readVal_of_mem hpv]
    exact hfp
  have hrq : S.readVal q ≠ 0 := by
    rw [readVal_of_mem hqv]
    exact hfq
  have hop : out1 S p ≠ 0 := by
    unfold out1
    rw [if_pos hpv, ne_eq, glob_eq_zero_iff]
    exact loc_ne_zero_iff.mpr
      ⟨writeBox_subset_readBox (mem_writeBox_blockOf hS hpv), hrp⟩
  have hoq : out1 S q ≠ 0 := by
    unfold out1
    rw [if_pos hqv, ne_eq, glob_eq_zero_iff]
    exact loc_ne_zero_iff.mpr
      ⟨writeBox_subset_readBox (mem_writeBox_blockOf hS hqv), hrq⟩
  rw [finalOut_char hS hordg' hcov' hnd3 hord3g' hcov3' p,
    finalOut_char hS hordg' hcov' hnd3 hord3g' hcov3' q,
    if_pos hpv, if_pos hqv]
  refine ⟨mapped_ne_zero hS hordg' hop, mapped_ne_zero hS hordg' hoq, ?_⟩
  intro heq
  exact hnc (volConn_of_mapped_eq hS hordg' hpv hqv hrp hrq heq)

/-- Claim C2, witness: the two disconnected runs of the second spec
scenario keep distinct nonzero labels. -/
theorem C2_distinctness_witness :
    finalOut SC2w [gA, gB] [gA, gB] ⟨0, 0, 0⟩ ≠ 0 ∧
    finalOut SC2w [gA, gB] [gA, gB] ⟨6, 0, 0⟩ ≠ 0 ∧
    finalOut SC2w [gA, gB] [gA, gB] ⟨0, 0, 0⟩ ≠
      finalOut SC2w [gA, gB] [gA, gB] ⟨6, 0, 0⟩ :=
  C2_distinctness SC2w (by decide) [gA, gB] [gA, gB] (by decide)
    (by decide) (by decide) (by decide) (by decide) (by decide)
    ⟨0, 0, 0⟩ ⟨6, 0, 0⟩ (by decide) (by decide) (by decide) (by decide)
    (fun hc => (by decide : ¬ volConnB SC2w ⟨0, 0, 0⟩ ⟨6, 0, 0⟩ = true)
      ((volConnB_iff (by decide)).mpr hc))

/-- Claim C3: after the full pipeline, every voxel with input 0 has output
0, and no voxel with nonzero input gets output 0 (in the exact-integer
semantics; the dtype wraparound caveat is claim C10's subject). -/
theorem C3_zero_preservation (S : Setup) (hS : S.valid)
    (ord ord3 : List V3)
    (hordg : ∀ g ∈ ord, g ∈ S.allGrids) (hcov : ∀ g ∈ S.allGrids, g ∈ ord)
    (hnd3 : ord3.Nodup) (hord3g : ∀ g ∈ ord3, g ∈ S.allGrids)
    (hcov3 : ∀ g ∈ S.allGrids, g ∈ ord3)
    (p : V3) (hpv : S.volBox.mem p) :
    (S.inp p = 0 → finalOut S ord ord3 p = 0) ∧
    (S.inp p ≠ 0 → finalOut S ord ord3 p ≠ 0) := by
  have hordg' : ∀ g ∈ ord, S.gridBox.mem g :=
    fun g hg => mem_positions.mp (hordg g hg)
  have hcov' : ∀ g, S.gridBox.mem g → g ∈ ord :=
    fun g hg => hcov g (mem_positions.mpr hg)
  have hord3g' : ∀ g ∈ ord3, S.gridBox.mem g :=
    fun g hg => mem_positions.mp (hord3g g hg)
  have hcov3' : ∀ g, S.gridBox.mem g → g ∈ ord3 :=
    fun g hg => hcov3 g (mem_positions.mpr hg)
  rw [finalOut_char hS hordg' hcov' hnd3 hord3g' hcov3' p, if_pos hpv]
  constructor
  · intro h0
    have hout : out1 S p = 0 := by
      unfold out1
      rw [if_pos hpv, glob_eq_zero_iff]
      by_contra hc
      have := (loc_ne_zero_iff.mp hc).2
      rw [readVal_of_mem hpv, h0] at this
      exact this rfl
    rw [hout]
    exact mapped_zero hS hordg'
  · intro hne
    have hout : out1 S p ≠ 0 := by
      unfold out1
      rw [if_pos hpv, ne_eq, glob_eq_zero_iff]
      refine loc_ne_zero_iff.mpr
        ⟨writeBox_subset_readBox (mem_writeBox_blockOf hS hpv), ?_⟩
      rw [readVal_of_mem hpv]
      exact hne
    exact mapped_ne_zero hS hordg' hout

/-- Claim C3, witness: a background voxel stays 0, a foreground voxel
stays nonzero. -/
theorem C3_zero_preservation_witness :
    finalOut S8 [gA, gB] [gA, gB] ⟨0, 0, 0⟩ = 0 ∧
    finalOut S8 [gA, gB] [gA, gB] ⟨3, 0, 0⟩ ≠ 0 :=
  ⟨(C3_zero_preservation S8 (by decide) [gA, gB] [gA, gB] (by decide)
      (by decide) (by decide) (by decide) (by decide) ⟨0, 0, 0⟩
      (by decide)).1 (by decide),
   (C3_zero_preservation S8 (by decide) [gA, gB] [gA, gB] (by decide)
      (by decide) (by decide) (by decide) (by decide) ⟨3, 0, 0⟩
      (by decide)).2 (by decide)⟩

/-- Claim C4, counterexample: the final array is NOT independent of the
phase-1 execution order.  A lone foreground voxel owned by block `gB` but
lying in block `gA`'s halo: when `gA` runs second it records a phantom
edge from its own (never-committed) halo label `1` to the committed label
`28`, and the merge renames the voxel to `1`; when `gA` runs first no edge
exists and the voxel keeps label `28`.  The two schedules produce
byte-different outputs. -/
theorem C4_determinism_counterexample :
    finalOut SC4 [gA, gB] [gA, gB] ⟨1, 0, 0⟩ ≠
      finalOut SC4 [gB, gA] [gA, gB] ⟨1, 0, 0⟩ := by decide

/-- Claim C4, amended: for a fixed input volume, fixed block partition and
fixed phase-1 execution order, the final output is uniquely determined and
in particular independent of the phase-3 execution order; byte-identity
across different phase-1 orders does not hold (see the counterexample). -/
theorem C4_determinism_amended (S : Setup) (hS : S.valid)
    (ord ord3 ord3' : List V3)
    (hordg : ∀ g ∈ ord, g ∈ S.allGrids) (hcov : ∀ g ∈ S.allGrids, g ∈ ord)
    (hnd3 : ord3.Nodup) (hord3g : ∀ g ∈ ord3, g ∈ S.allGrids)
    (hcov3 : ∀ g ∈ S.allGrids, g ∈ ord3)
    (hnd3' : ord3'.Nodup) (hord3g' : ∀ g ∈ ord3', g ∈ S.allGrids)
    (hcov3' : ∀ g ∈ S.allGrids, g ∈ ord3') :
    finalOut S ord ord3 = finalOut S ord ord3' := by
  funext p
  have h1 : ∀ g ∈ ord, S.gridBox.mem g :=
    fun g hg => mem_positions.mp (hordg g hg)
  have h2 : ∀ g, S.gridBox.mem g → g ∈ ord :=
    fun g hg => hcov g (mem_positions.mpr hg)
  rw [finalOut_char hS h1 h2 hnd3
      (fun g hg => mem_positions.mp (hord3g g hg))
      (fun g hg => hcov3 g (mem_positions.mpr hg)) p,
    finalOut_char hS h1 h2 hnd3'
      (fun g hg => mem_positions.mp (hord3g' g hg))
      (fun g hg => hcov3' g (mem_positions.mpr hg)) p]

/-- Claim C4, witness for the amended statement: reversing the phase-3
order leaves the output array untouched. -/
theorem C4_determinism_amended_witness :
    finalOut S8 [gA, gB] [gA, gB] = finalOut S8 [gA, gB] [gB, gA] :=
  C4_determinism_amended S8 (by decide) [gA, gB] [gA, gB] [gB, gA]
    (by decide) (by decide) (by decide) (by decide) (by decide)
    (by decide) (by decide) (by decide)

/-- Claim C5: with capacity `num_voxels_in_block` (the template read
region's voxel count), phase 1 sends local label 0 to global 0 and a
nonzero local label `L` to `block_id * capacity + L`; distinct blocks'
nonzero global labels never collide, so equal nonzero global labels come
from one block. -/
theorem C5_namespace_disjoint (S : Setup) (hS : S.valid) :
    (∀ g p, loc S g p = 0 → glob S g p = 0) ∧
    (∀ g p, loc S g p ≠ 0 →
      glob S g p = S.blockId g * S.cap + loc S g p) ∧
    (∀ g g' p p', g ∈ S.allGrids → g' ∈ S.allGrids → g ≠ g' →
      glob S g p ≠ 0 → glob S g' p' ≠ 0 → glob S g p ≠ glob S g' p') := by
  refine ⟨?_, ?_, ?_⟩
  · intro g p h
    unfold glob
    rw [if_pos h]
  · intro g p h
    unfold glob
    rw [if_neg h]
  · intro g g' p p' hg hg' hne hz hz' heq
    exact hne (glob_inj hS (mem_positions.mp hg) (mem_positions.mp hg')
      hz heq).1

/-- Claim C5, witness: in the straddling scenario block 0 and block 1 hand
out labels 1 and 55 = 1 * 54 + 1, which differ. -/
theorem C5_namespace_disjoint_witness :
    glob S8 gB ⟨4, 0, 0⟩ = S8.blockId gB * S8.cap + loc S8 gB ⟨4, 0, 0⟩ ∧
    glob S8 gA ⟨3, 0, 0⟩ ≠ glob S8 gB ⟨4, 0, 0⟩ :=
  ⟨(C5_namespace_disjoint S8 (by decide)).2.1 gB ⟨4, 0, 0⟩ (by decide),
   (C5_namespace_disjoint S8 (by decide)).2.2 gA gB ⟨3, 0, 0⟩ ⟨4, 0, 0⟩
     (by decide) (by decide) (by decide) (by decide) (by decide)⟩

/-- Claim C6, counterexample: the code pairs the outermost slices of the
FULL halo-padded `components` array with the re-read array — not, as the
claim words it, the outermost slices of the block's cropped labels.  In
the straddling scenario, block `gB`'s actual edge list is `[(55, 1)]`
(halo label 55 against neighbor label 1), while the claimed construction
would pair the write-region boundary with the block's own committed
labels and produce only the degenerate self-pairs `(55, 55)`. -/
theorem C6_slice_source_counterexample :
    blockEdges S8 gB (partialArr S8 [gA, gB]) = [(55, 1)] ∧
    specBlockEdges S8 gB (partialArr S8 [gA, gB]) =
      [(55, 55), (55, 55), (55, 55)] ∧
    (55, 1) ∉ specBlockEdges S8 gB (partialArr S8 [gA, gB]) := by decide

/-- Claim C6, amended: the edge candidates pair, at each position of the
outermost slices of the block's READ region (equivalently: at each halo
position, a read-region position outside the write region), the block's
own offset label with the re-read destination value at the same position;
pairs containing 0 are discarded, and the node set is exactly the set of
distinct values appearing in the retained pairs. -/
theorem C6_edge_extraction_amended (S : Setup) (g : V3) (arr : Arr)
    (e : ℕ × ℕ) (v : ℕ) :
    (e ∈ blockEdges S g arr ↔
      (∃ p, (S.readBox g).mem p ∧ ¬ (S.writeBox g).mem p ∧
        e = (glob S g p, readOut S arr p)) ∧ e.1 ≠ 0 ∧ e.2 ≠ 0) ∧
    (v ∈ blockNodes S g arr ↔
      ∃ e' ∈ blockEdges S g arr, v = e'.1 ∨ v = e'.2) :=
  ⟨mem_blockEdges_iff, mem_blockNodes_iff⟩

/-- Claim C7: a maximal foreground blob lying strictly inside one block's
write region (never touching the block boundary) keeps its offset
provisional label through the relabel pass: the label enters no block's
node or edge set, so the value substitution passes it through
unchanged. -/
theorem C7_isolated_label (S : Setup) (hS : S.valid)
    (ord ord3 : List V3)
    (hordg : ∀ g ∈ ord, g ∈ S.allGrids) (hcov : ∀ g ∈ S.allGrids, g ∈ ord)
    (hnd3 : ord3.Nodup) (hord3g : ∀ g ∈ ord3, g ∈ S.allGrids)
    (hcov3 : ∀ g ∈ S.allGrids, g ∈ ord3)
    (p : V3) (hpv : S.volBox.mem p) (hfp : S.inp p ≠ 0)
    (hblob : ∀ q, volConn S p q → interiorWrite S (S.blockOf p) q) :
    out1 S p ∉ allNodes S ord ∧ finalOut S ord ord3 p = out1 S p := by
  have hordg' : ∀ g ∈ ord, S.gridBox.mem g :=
    fun g hg => mem_positions.mp (hordg g hg)
  have hcov' : ∀ g, S.gridBox.mem g → g ∈ ord :=
    fun g hg => hcov g (mem_positions.mpr hg)
  have hord3g' : ∀ g ∈ ord3, S.gridBox.mem g :=
    fun g hg => mem_positions.mp (hord3g g hg)
  have hcov3' : ∀ g, S.gridBox.mem g → g ∈ ord3 :=
    fun g hg => hcov3 g (mem_positions.mpr hg)
  have hrp : S.readVal p ≠ 0 := by
    rw [readVal_of_mem hpv]
    exact hfp
  have hpr : (S.readBox (S.blockOf p)).mem p :=
    writeBox_subset_readBox (mem_writeBox_blockOf hS hpv)
  have hop : out1 S p = glob S (S.blockOf p) p := by
    unfold out1
    rw [if_pos hpv]
  have hopnz : glob S (S.blockOf p) p ≠ 0 := by
    rw [ne_eq, glob_eq_zero_iff]
    exact loc_ne_zero_iff.mpr ⟨hpr, hrp⟩
  have hnotnode : out1 S p ∉ allNodes S ord := by
    intro hmem
    obtain ⟨e, he, hor⟩ := allNodes_sound hS hordg' hmem
    obtain ⟨g1, x, hg1, hxr, hxw, hxv, hxf, hxo, he1, he2, hn1, hn2⟩ :=
      allEdges_sound hS hordg' he
    rcases hor with h | h
    · -- the blob's label is a block's halo label of some voxel x
      have heq : glob S (S.blockOf p) p = glob S g1 x := by
        rw [← hop, h, he1]
      obtain ⟨hbg, hloc⟩ :=
        glob_inj hS (blockOf_mem_grid hS hpv) hg1 hopnz heq
      have hxr' : (S.readBox (S.blockOf p)).mem x := by
        rw [hbg]
        exact hxr
      rw [← hbg] at hloc
      have hvc : volConn S p x :=
        locConn_volConn (conn_of_loc_eq hpr hxr' hrp hxf hloc)
      apply hxw
      rw [← hbg]
      exact mem_interior_writeBox (hblob x hvc)
    · -- the blob's label is the committed label of some halo voxel x
      have heq : glob S (S.blockOf p) p = glob S (S.blockOf x) x := by
        rw [← hop, h, he2]
      obtain ⟨hbg, hloc⟩ := glob_inj hS (blockOf_mem_grid hS hpv)
        (blockOf_mem_grid hS hxv) hopnz heq
      have hxr' : (S.readBox (S.blockOf p)).mem x := by
        rw [hbg]
        exact writeBox_subset_readBox (mem_writeBox_blockOf hS hxv)
      rw [← hbg] at hloc
      have hvc : volConn S p x :=
        locConn_volConn (conn_of_loc_eq hpr hxr' hrp hxf hloc)
      exact interiorWrite_not_halo hS hg1 (hblob x hvc) hxr hxw
  refine ⟨hnotnode, ?_⟩
  rw [finalOut_char hS hordg' hcov' hnd3 hord3g' hcov3' p, if_pos hpv,
    mapped_eq, if_neg hnotnode]

/-- Claim C7, witness: an isolated interior voxel keeps its provisional
label 1 through the whole pipeline. -/
theorem C7_isolated_label_witness :
    out1 S7 ⟨1, 1, 1⟩ ∉ allNodes S7 [gA] ∧
    finalOut S7 [gA] [gA] ⟨1, 1, 1⟩ = out1 S7 ⟨1, 1, 1⟩ :=
  C7_isolated_label S7 (by decide) [gA] [gA] (by decide) (by decide)
    (by decide) (by decide) (by decide) ⟨1, 1, 1⟩ (by decide) (by decide)
    (fun q hconn => by
      have h1 : q ∈ ball S7.volBox.positions (valStep S7)
          S7.volBox.positions.length ⟨1, 1, 1⟩ :=
        ball_complete (by decide) hconn
      have h2 : ball S7.volBox.positions (valStep S7)
          S7.volBox.positions.length ⟨1, 1, 1⟩ = [⟨1, 1, 1⟩] := by decide
      rw [h2] at h1
      rw [List.mem_singleton.mp h1]
      decide)

/-- Claim C8, counterexample: the block routine is hard-coded for three
dimensions — the halo crop `components[1:-1, 1:-1, 1:-1]` uses three index
expressions, and numpy rejects that on a rank-1 array of shape `(8,)`, so
the pipeline does not handle a 1D volume at all. -/
theorem C8_dimensionality_counterexample :
    cropHaloShape [8] = Except.error "too many indices for array" ∧
    cropHaloShape [6, 3, 3] = Except.ok [4, 1, 1] := ⟨rfl, rfl⟩

/-- Claim C8, amended: the pipeline is 3D-specific; on the 3D analogue of
the claimed scenario — volume 8×1×1, block size 4×1×1 (blocks `gA`, `gB`),
foreground 1s at x = 3, 4 straddling the block boundary — it produces the
single uniform nonzero label 1 at those two voxels and 0 elsewhere, for
either phase-1 block order. -/
theorem C8_scenario_amended :
    (∀ p ∈ S8.volBox.positions, finalOut S8 [gA, gB] [gA, gB] p =
      if p = ⟨3, 0, 0⟩ ∨ p = ⟨4, 0, 0⟩ then 1 else 0) ∧
    (∀ p ∈ S8.volBox.positions, finalOut S8 [gB, gA] [gA, gB] p =
      if p = ⟨3, 0, 0⟩ ∨ p = ⟨4, 0, 0⟩ then 1 else 0) := by decide

/-- Claim C9: the merge-input collection reads exactly the block scratch
files that exist and raises no error (as long as at least one file
exists); a block whose phase-1 entry is missing contributes nothing, and
the merge silently under-merges the components its edges would have
joined — no completeness check over expected block ids exists.  With block
`gB`'s entry missing, the straddling blob stays split (labels 1 and 55)
although the full run unifies it. -/
theorem C9_missing_scratch :
    (∀ (entries : List Entry) (present : List ℕ),
      presentEntries entries present ≠ [] →
      readCrossBlockMerges (presentEntries entries present) =
        Except.ok ((presentEntries entries present).flatMap Entry.nodes,
          (presentEntries entries present).flatMap Entry.edges)) ∧
    pipelinePresent S8 [gA, gB] [gA, gB] [S8.blockId gA] =
      Except.ok (finalOutPresent S8 [gA, gB] [gA, gB] [S8.blockId gA]) ∧
    finalOutPresent S8 [gA, gB] [gA, gB] [S8.blockId gA] ⟨3, 0, 0⟩ ≠
      finalOutPresent S8 [gA, gB] [gA, gB] [S8.blockId gA] ⟨4, 0, 0⟩ ∧
    finalOut S8 [gA, gB] [gA, gB] ⟨3, 0, 0⟩ =
      finalOut S8 [gA, gB] [gA, gB] ⟨4, 0, 0⟩ := by
  refine ⟨?_, ?_, ?_, ?_⟩
  · intro entries present h
    unfold readCrossBlockMerges
    rw [if_neg (by rwa [List.isEmpty_iff])]
  · exact pipelinePresent_eq_ok (by decide)
  · decide
  · decide

/-- Claim C9, witness: the collection applied to the one existing scratch
file of the straddling run returns its contents without error. -/
theorem C9_missing_scratch_witness :
    readCrossBlockMerges
        (presentEntries (phase1 S8 [gA, gB]).2 [S8.blockId gA]) =
      Except.ok
        ((presentEntries (phase1 S8 [gA, gB]).2 [S8.blockId gA]).flatMap
          Entry.nodes,
         (presentEntries (phase1 S8 [gA, gB]).2 [S8.blockId gA]).flatMap
          Entry.edges) :=
  C9_missing_scratch.1 (phase1 S8 [gA, gB]).2 [S8.blockId gA] (by decide)

/-- Claim C10: with an integer dtype of `w` bits, the stored provisional
label is `(block_id * num_voxels_in_block + local_label) mod 2^w` — the
local labeling is cast to the input dtype before the wrapped offset
addition; when `block_id * capacity + local_label < 2^w` this equals the
exact integer, and beyond it the value wraps so distinct blocks' nonzero
ranges can collide (with 21 one-voxel blocks and `w = 8`, block 0's label
2 and block 19's label 514 both store as 2 even though the exact labels
differ). -/
theorem C10_dtype_wraparound :
    (∀ (S : Setup) (w : ℕ) (g p : V3), loc S g p ≠ 0 →
      globW S w g p = (S.blockId g * S.cap + loc S g p) % 2 ^ w) ∧
    (∀ (S : Setup) (w : ℕ) (g p : V3),
      S.blockId g * S.cap + loc S g p < 2 ^ w →
      globW S w g p = glob S g p) ∧
    (globW S10 8 ⟨0, 0, 0⟩ ⟨1, 0, 0⟩ = globW S10 8 ⟨19, 0, 0⟩ ⟨19, 0, 0⟩ ∧
      globW S10 8 ⟨0, 0, 0⟩ ⟨1, 0, 0⟩ ≠ 0 ∧
      (⟨0, 0, 0⟩ : V3) ≠ ⟨19, 0, 0⟩ ∧
      glob S10 ⟨0, 0, 0⟩ ⟨1, 0, 0⟩ ≠ glob S10 ⟨19, 0, 0⟩ ⟨19, 0, 0⟩) := by
  refine ⟨?_, ?_, ?_⟩
  · intro S w g p h
    unfold globW
    rw [if_neg h, Nat.mod_add_mod,
      Nat.add_comm (loc S g p) (S.blockId g * S.cap)]
  · intro S w g p h
    by_cases h0 : loc S g p = 0
    · unfold globW glob
      rw [if_pos h0, if_pos h0]
    · unfold globW glob
      rw [if_neg h0, if_neg h0, Nat.mod_add_mod,
        Nat.add_comm (loc S g p) (S.blockId g * S.cap), Nat.mod_eq_of_lt h]
  · decide

/-- Claim C10, witness: with a wide dtype the stored label is exact, with
a narrow one it is the wrapped remainder. -/
theorem C10_dtype_wraparound_witness :
    globW S8 32 gB ⟨4, 0, 0⟩ = glob S8 gB ⟨4, 0, 0⟩ ∧
    globW S10 8 ⟨19, 0, 0⟩ ⟨19, 0, 0⟩ =
      (S10.blockId ⟨19, 0, 0⟩ * S10.cap + loc S10 ⟨19, 0, 0⟩ ⟨19, 0, 0⟩) %
        2 ^ 8 :=
  ⟨C10_dtype_wraparound.2.1 S8 32 gB ⟨4, 0, 0⟩ (by decide),
   C10_dtype_wraparound.1 S10 8 ⟨19, 0, 0⟩ ⟨19, 0, 0⟩ (by decide)⟩

end RelabelCC
